import Mathlib

/-!
Verification of the GF(2^n) field-element class of gf2n.py.

Every definition below is a shallow embedding of the corresponding Python
code.  Machine integers are modelled as `Nat`; the Python built-ins
`int.bit_length`, `int.from_bytes`, `int.to_bytes` and the binary rendering
`bin(e)[2:]` are modelled by executable Lean functions.  Loops of the source
are modelled with explicit fuel so that every function is structurally
recursive and computable by the kernel; a fuel-invariance lemma shows the
fuel never matters on the stated domains.
-/

/-- Fuelled computation of the number of binary digits of a natural number.
Models the Python built-in x.bit_length(); the fuel only has to be at least
the number of digits, and `bitLength` below always passes enough. -/
def bitLenF : Nat → Nat → Nat
  | 0, _ => 0
  | f+1, x => if x = 0 then 0 else bitLenF f (x / 2) + 1

/-- Number of binary digits of x, as in the Python x.bit_length():
bitLength 0 = 0 and 2 ^ (bitLength x - 1) ≤ x < 2 ^ bitLength x for x ≥ 1. -/
def bitLength (x : Nat) : Nat := bitLenF x x

/-- Fuelled carry-less (GF(2) polynomial) product: the accumulator form of
the double-and-add loop, bit i of x contributes y shifted left by i. -/
def clmulF : Nat → Nat → Nat → Nat
  | 0, _, _ => 0
  | f+1, x, y => if x = 0 then 0 else (if x % 2 = 1 then y else 0) ^^^ 2 * clmulF f (x / 2) y

/-- Carry-less product of two naturals viewed as GF(2) polynomials. -/
def clmul (x y : Nat) : Nat := clmulF x x y

/-- Congruence modulo the field polynomial p in GF(2)[x]: a and b differ by a
carry-less multiple of p.  This is the mathematical meaning of the phrase
congruent modulo the field polynomial in the specification. -/
def CongrModP (p a b : Nat) : Prop := ∃ q, a ^^^ b = clmul q p

/-- One step of the reduction loop of GF2n._reduce_modp: XOR the value with
the polynomial shifted so that the leading bits line up. -/
def reduceStep (p n val : Nat) : Nat := val ^^^ (p <<< (bitLength val - 1 - n))

/-- Fuelled body of the while loop of GF2n._reduce_modp. -/
def reduceF (p n : Nat) : Nat → Nat → Nat
  | 0, val => val
  | f+1, val => if val < 2 ^ n then val else reduceF p n f (reduceStep p n val)

/-- GF2n._reduce_modp: repeatedly XOR with a shifted copy of p until the
value drops below 2 ^ n.  The fuel val + 1 always suffices because every
iteration strictly decreases the value (proved below). -/
def reduce_modp (p n val : Nat) : Nat := reduceF p n (val + 1) val

/-- Big-endian byte-string decoding, as in int.from_bytes(bs, byteorder =
big): most significant byte first. -/
def fromBytesBE (bs : List Nat) : Nat := bs.foldl (fun acc b => acc * 256 + b) 0

/-- Big-endian byte-string encoding of x on exactly len bytes, as in
x.to_bytes(len, byteorder = big) when x < 256 ^ len. -/
def toBytesBE : Nat → Nat → List Nat
  | 0, _ => []
  | len+1, x => toBytesBE len (x / 256) ++ [x % 256]

/-- An element of GF(2 ^ n): the stored polynomial p and the stored value
val, exactly the two attributes the Python class keeps (the attribute n is
derived from p and the debug flag log does not affect any result). -/
structure GF2n where
  p : Nat
  val : Nat
deriving DecidableEq, Repr

/-- The derived attribute self.n = self.p.bit_length() - 1 (for p ≥ 1). -/
def GF2n.n (a : GF2n) : Nat := bitLength a.p - 1

/-- GF2n.__init__ with an integer polynomial and an integer value: store p,
derive n, store the value reduced by _reduce_modp. -/
def GF2n.init (p v : Nat) : GF2n := ⟨p, reduce_modp p (bitLength p - 1) v⟩

/-- GF2n.__init__ with a big-endian byte-string value. -/
def GF2n.initBytes (p : Nat) (bs : List Nat) : GF2n := GF2n.init p (fromBytesBE bs)

/-- GF2n.__init__ as actually callable from outside, including the
degenerate polynomial p = 0.  In Python, p = 0 gives n = -1 and the
comparison val < 2 ** n compares against the float 0.5, so a zero value is
accepted unchanged while any positive value makes the reduction loop spin
forever on val = val XOR (0 shifted left), never returning; that
non-returning call is modelled as none.  No exception is ever raised. -/
def GF2n.construct (p v : Nat) : Option GF2n :=
  if p = 0 then (if v = 0 then some ⟨0, 0⟩ else none)
  else some (GF2n.init p v)

/-- GF2n.__eq__ on two field elements: same val and same p. -/
def GF2n.beq (a b : GF2n) : Bool := a.val == b.val && a.p == b.p

/-- GF2n.__eq__ with a raw integer right operand: coerce through the
constructor with the polynomial of the left operand, then compare. -/
def GF2n.eqInt (a : GF2n) (k : Nat) : Bool := GF2n.beq a (GF2n.init a.p k)

/-- GF2n.__eq__ with a byte-string right operand. -/
def GF2n.eqBytes (a : GF2n) (bs : List Nat) : Bool := GF2n.beq a (GF2n.initBytes a.p bs)

/-- GF2n.__add__ on two field elements: XOR of the values, passed through
the constructor (which reduces, a no-op on reduced operands). -/
def GF2n.add (a b : GF2n) : GF2n := GF2n.init a.p (a.val ^^^ b.val)

/-- GF2n.__sub__: literally self.__add__(b). -/
def GF2n.sub (a b : GF2n) : GF2n := GF2n.add a b

/-- The b == 2 shortcut of GF2n.__mul__: shift left one bit, XOR with p
once if the result reached 2 ^ n, then construct. -/
def GF2n.double (a : GF2n) : GF2n :=
  GF2n.init a.p (if 2 * a.val ≥ 2 ^ a.n then 2 * a.val ^^^ a.p else 2 * a.val)

/-- Fuelled while loop of the general double-and-add branch of
GF2n.__mul__: m is the remaining multiplier bits, pw the running power
(doubled each iteration), r the accumulator. -/
def GF2n.mulAccF : Nat → GF2n → GF2n → Nat → GF2n
  | 0, _, r, _ => r
  | f+1, pw, r, m =>
    if m = 0 then r
    else GF2n.mulAccF f (GF2n.double pw) (if m % 2 = 1 then GF2n.add r pw else r) (m / 2)

/-- The general double-and-add branch of GF2n.__mul__ applied to the
multiplier bits m: p = self * 1, r = GF2n(self.p, 0), then the loop.  The
fuel m suffices because the multiplier is halved every iteration. -/
def GF2n.mulGeneral (a : GF2n) (m : Nat) : GF2n :=
  GF2n.mulAccF m (GF2n.init a.p a.val) (GF2n.init a.p 0) m

/-- GF2n.__mul__ with a field-element right operand.  The b == 1 and b == 2
guards go through GF2n.__eq__, hence compare b.val with the reduction of 1
resp. 2 modulo the polynomial of b. -/
def GF2n.mul (a b : GF2n) : GF2n :=
  if b.val = (GF2n.init b.p 1).val then GF2n.init a.p a.val
  else if b.val = (GF2n.init b.p 2).val then GF2n.double a
  else GF2n.mulGeneral a b.val

/-- GF2n.__mul__ with a raw integer right operand: the b == 1 / b == 2
guards are plain integer comparisons, any other integer is coerced through
the constructor before the loop. -/
def GF2n.mulInt (a : GF2n) (k : Nat) : GF2n :=
  if k = 1 then GF2n.init a.p a.val
  else if k = 2 then GF2n.double a
  else GF2n.mulGeneral a ((GF2n.init a.p k).val)

/-- GF2n.__rmul__: return self * a. -/
def GF2n.rmul (a : GF2n) (k : Nat) : GF2n := GF2n.mulInt a k

/-- Fuelled list of binary digits of x, least significant first. -/
def bitsF : Nat → Nat → List Bool
  | 0, _ => []
  | f+1, x => if x = 0 then [] else (x % 2 == 1) :: bitsF f (x / 2)

/-- The digit string bin(x)[2:] of a nonnegative x, most significant digit
first, modelled as a list of Booleans (the loop of GF2n.__pow__ only ever
distinguishes the character 0 from every other character).  bin(0)[2:] is
the single character 0. -/
def binDigits (x : Nat) : List Bool :=
  if x = 0 then [false] else (bitsF x x).reverse

/-- The digit string bin(e)[2:] for an arbitrary integer exponent.  For a
negative e, bin(e) is a minus sign followed by 0b and the binary digits of
the absolute value, so the slice [2:] starts with the letter b, which the
ladder loop treats like a set bit because it is not the character 0. -/
def powDigits (e : Int) : List Bool :=
  if e < 0 then true :: binDigits (-e).toNat else binDigits e.toNat

/-- One iteration of the Montgomery ladder of GF2n.__pow__ over the pair
(x0, x1); the Python assignments read the old values of both variables. -/
def GF2n.ladderStep (xp : GF2n × GF2n) (bit : Bool) : GF2n × GF2n :=
  if bit then (GF2n.mul xp.1 xp.2, GF2n.mul xp.2 xp.2)
  else (GF2n.mul xp.1 xp.1, GF2n.mul xp.1 xp.2)

/-- GF2n.__pow__ with an integer exponent: walk the digit string of the
exponent with the ladder starting from (GF2n(p, 1), GF2n(p, val)) and
return x0. -/
def GF2n.pow (a : GF2n) (e : Int) : GF2n :=
  (List.foldl GF2n.ladderStep (GF2n.init a.p 1, GF2n.init a.p a.val) (powDigits e)).1

/-- GF2n.__bytes__: serialize val on ceil(n / 8) big-endian bytes;
int.to_bytes raises OverflowError when the value does not fit, modelled as
none (it never happens for a reduced value). -/
def GF2n.toBytes (a : GF2n) : Option (List Nat) :=
  if a.val < 256 ^ ((a.n + 7) / 8) then some (toBytesBE ((a.n + 7) / 8) a.val) else none

/-- One term of GF2n.__str__ for degree i: 1, x, or x^i. -/
def termStr (i : Nat) : String :=
  if i = 0 then "1" else if i = 1 then "x" else "x^" ++ Nat.repr i

/-- The set-bit positions of v from highest to lowest, as enumerated by the
loop of GF2n.__str__ over the reversed binary string of val. -/
def bitIdxDesc (v : Nat) : List Nat :=
  ((List.range (bitLength v)).filter (fun i => v.testBit i)).reverse

/-- The list s of terms built by GF2n.__str__ (with the 0 fallback for an
empty list). -/
def termsOf (v : Nat) : List String :=
  if (bitIdxDesc v).map termStr = [] then ["0"] else (bitIdxDesc v).map termStr

/-- Lower-case hexadecimal digit. -/
def hexDigitChar (d : Nat) : Char := Char.ofNat (if d < 10 then 48 + d else 87 + d)

/-- Fuelled lower-case hexadecimal digits of x, most significant first. -/
def hexF : Nat → Nat → List Char
  | 0, _ => []
  | f+1, x => if x = 0 then [] else hexF f (x / 16) ++ [hexDigitChar (x % 16)]

/-- The format specifier 0x{:x} body: lower-case hexadecimal of x. -/
def hexStr (x : Nat) : String := if x = 0 then "0" else String.mk (hexF x x)

/-- GF2n.__str__: the terms joined by plus signs, followed by the value in
hexadecimal. -/
def GF2n.toStr (a : GF2n) : String :=
  String.intercalate " + " (termsOf a.val) ++ " (0x" ++ hexStr a.val ++ ")"

/-- Helper for the exponentiation proofs: the k-fold product
1 * a * a * ... * a through GF2n.mul, the mathematical a ^ k. -/
def GF2n.npow (a : GF2n) : Nat → GF2n
  | 0 => GF2n.init a.p 1
  | k+1 => GF2n.mul (GF2n.npow a k) a

/-- Value of a most-significant-first digit string read on top of the
accumulator v, as the ladder interprets it. -/
def bitsVal (ds : List Bool) (v : Nat) : Nat :=
  ds.foldl (fun acc b => 2 * acc + (if b then 1 else 0)) v

/-- The L low-order binary digits of m, least significant first (the bit
pattern a fixed-width register of width L would hold). -/
def padBits : Nat → Nat → List Bool
  | 0, _ => []
  | L+1, m => (m % 2 == 1) :: padBits L (m / 2)

theorem bitLenF_zero (f : Nat) : bitLenF f 0 = 0 := by cases f <;> rfl

theorem bitLenF_congr : ∀ f g x : Nat, x ≤ f → x ≤ g → bitLenF f x = bitLenF g x := by
  intro f
  induction f with
  | zero =>
    intro g x hf _
    have hx : x = 0 := Nat.le_zero.mp hf
    subst hx
    rw [bitLenF_zero, bitLenF_zero]
  | succ f ih =>
    intro g x hf hg
    rcases Nat.eq_zero_or_pos x with hx | hx
    · subst hx; rw [bitLenF_zero, bitLenF_zero]
    · obtain ⟨g, rfl⟩ : ∃ k, g = k + 1 := ⟨g - 1, by omega⟩
      show (if x = 0 then 0 else bitLenF f (x / 2) + 1)
         = (if x = 0 then 0 else bitLenF g (x / 2) + 1)
      rw [if_neg (by omega), if_neg (by omega), ih g (x / 2) (by omega) (by omega)]

theorem bitLength_zero : bitLength 0 = 0 := rfl

theorem bitLength_succ (x : Nat) (hx : x ≠ 0) : bitLength x = bitLength (x / 2) + 1 := by
  obtain ⟨y, rfl⟩ : ∃ y, x = y + 1 := ⟨x - 1, by omega⟩
  show bitLenF (y + 1) (y + 1) = bitLength ((y + 1) / 2) + 1
  show (if y + 1 = 0 then 0 else bitLenF y ((y + 1) / 2) + 1) = bitLength ((y + 1) / 2) + 1
  rw [if_neg (by omega), bitLenF_congr y ((y + 1) / 2) ((y + 1) / 2) (by omega) (by omega)]
  rfl

theorem bitLength_pos (x : Nat) (hx : x ≠ 0) : 1 ≤ bitLength x := by
  rw [bitLength_succ x hx]; omega

theorem lt_two_pow_bitLength (x : Nat) : x < 2 ^ bitLength x := by
  induction x using Nat.strong_induction_on with
  | _ x ih =>
    rcases Nat.eq_zero_or_pos x with hx | hx
    · subst hx; decide
    · rw [bitLength_succ x (by omega)]
      have h2 := ih (x / 2) (by omega)
      rw [Nat.pow_succ]
      omega

theorem two_pow_le_bitLength (x : Nat) (hx : x ≠ 0) : 2 ^ (bitLength x - 1) ≤ x := by
  induction x using Nat.strong_induction_on with
  | _ x ih =>
    rcases Nat.eq_zero_or_pos (x / 2) with hx2 | hx2
    · have hx1 : x = 1 := by omega
      subst hx1; decide
    · rw [bitLength_succ x hx]
      have h2 := ih (x / 2) (by omega) (by omega)
      have hbl := bitLength_pos (x / 2) (by omega)
      have hrw : bitLength (x / 2) + 1 - 1 = (bitLength (x / 2) - 1) + 1 := by omega
      rw [hrw, Nat.pow_succ]
      omega

theorem bitLength_eq (k x : Nat) (h1 : 2 ^ k ≤ x) (h2 : x < 2 ^ (k + 1)) :
    bitLength x = k + 1 := by
  have hx : x ≠ 0 := by
    have := Nat.two_pow_pos k
    omega
  have hA := lt_two_pow_bitLength x
  have hB := two_pow_le_bitLength x hx
  have h3 : k < bitLength x := by
    by_contra h
    push_neg at h
    have := Nat.pow_le_pow_right (by norm_num : 1 ≤ 2) h
    omega
  have h4 : bitLength x - 1 < k + 1 := by
    by_contra h
    push_neg at h
    have := Nat.pow_le_pow_right (by norm_num : 1 ≤ 2) h
    omega
  omega

theorem bitLength_le_iff (x k : Nat) : bitLength x ≤ k ↔ x < 2 ^ k := by
  constructor
  · intro h
    have hA := lt_two_pow_bitLength x
    have := Nat.pow_le_pow_right (by norm_num : 1 ≤ 2) h
    omega
  · intro h
    by_contra hc
    push_neg at hc
    have hx : x ≠ 0 := by
      intro h0
      subst h0
      rw [bitLength_zero] at hc
      omega
    have hB := two_pow_le_bitLength x hx
    have : 2 ^ k ≤ 2 ^ (bitLength x - 1) :=
      Nat.pow_le_pow_right (by norm_num : 1 ≤ 2) (by omega)
    omega

theorem bitLength_mul_two_pow (p s : Nat) (hp : p ≠ 0) :
    bitLength (p * 2 ^ s) = bitLength p + s := by
  have hA := lt_two_pow_bitLength p
  have hB := two_pow_le_bitLength p hp
  have hbl := bitLength_pos p hp
  have hlo : 2 ^ (bitLength p - 1 + s) ≤ p * 2 ^ s := by
    rw [Nat.pow_add]
    exact Nat.mul_le_mul_right _ hB
  have hhi : p * 2 ^ s < 2 ^ (bitLength p + s) := by
    rw [Nat.pow_add]
    exact Nat.mul_lt_mul_right (Nat.two_pow_pos s) |>.mpr hA
  have := bitLength_eq (bitLength p - 1 + s) (p * 2 ^ s) hlo (by
    have hrw : bitLength p - 1 + s + 1 = bitLength p + s := by omega
    rw [hrw]; exact hhi)
  omega

theorem testBit_top (x : Nat) (hx : x ≠ 0) : x.testBit (bitLength x - 1) = true := by
  have hA := lt_two_pow_bitLength x
  have hB := two_pow_le_bitLength x hx
  have hbl := bitLength_pos x hx
  rw [Nat.testBit_to_div_mod]
  have hm : bitLength x = (bitLength x - 1) + 1 := by omega
  rw [hm, Nat.pow_succ] at hA
  have hdiv : x / 2 ^ (bitLength x - 1) = 1 := by
    apply Nat.div_eq_of_lt_le
    · omega
    · omega
  rw [hdiv]
  decide

theorem two_pow_le_xor (k a b : Nat) (ha : 2 ^ k ≤ a) (hb : b < 2 ^ k) :
    2 ^ k ≤ a ^^^ b := by
  have hane : a ≠ 0 := by have := Nat.two_pow_pos k; omega
  set d := bitLength a - 1 with hd
  have hkd : k ≤ d := by
    have : ¬ (bitLength a ≤ k) := by
      rw [bitLength_le_iff]; omega
    have hbl := bitLength_pos a hane
    omega
  have hta : a.testBit d = true := testBit_top a hane
  have htb : b.testBit d = false := by
    apply Nat.testBit_lt_two_pow
    calc b < 2 ^ k := hb
    _ ≤ 2 ^ d := Nat.pow_le_pow_right (by norm_num) hkd
  have hx : (a ^^^ b).testBit d = true := by
    rw [Nat.testBit_xor, hta, htb]
    rfl
  calc 2 ^ k ≤ 2 ^ d := Nat.pow_le_pow_right (by norm_num) hkd
  _ ≤ a ^^^ b := Nat.testBit_implies_ge hx

theorem clmulF_zero (f y : Nat) : clmulF f 0 y = 0 := by cases f <;> rfl

theorem clmulF_congr : ∀ f g x y : Nat, x ≤ f → x ≤ g → clmulF f x y = clmulF g x y := by
  intro f
  induction f with
  | zero =>
    intro g x y hf _
    have hx : x = 0 := Nat.le_zero.mp hf
    subst hx
    rw [clmulF_zero, clmulF_zero]
  | succ f ih =>
    intro g x y hf hg
    rcases Nat.eq_zero_or_pos x with hx | hx
    · subst hx; rw [clmulF_zero, clmulF_zero]
    · obtain ⟨g, rfl⟩ : ∃ k, g = k + 1 := ⟨g - 1, by omega⟩
      have hne : ¬ (x = 0) := by omega
      show (if x = 0 then 0 else (if x % 2 = 1 then y else 0) ^^^ 2 * clmulF f (x / 2) y)
         = (if x = 0 then 0 else (if x % 2 = 1 then y else 0) ^^^ 2 * clmulF g (x / 2) y)
      rw [if_neg hne, if_neg hne, ih g (x / 2) y (by omega) (by omega)]

theorem clmul_zero_left (y : Nat) : clmul 0 y = 0 := rfl

theorem clmul_rec (x y : Nat) (hx : x ≠ 0) :
    clmul x y = (if x % 2 = 1 then y else 0) ^^^ 2 * clmul (x / 2) y := by
  obtain ⟨z, rfl⟩ : ∃ z, x = z + 1 := ⟨x - 1, by omega⟩
  show (if z + 1 = 0 then 0 else
    (if (z + 1) % 2 = 1 then y else 0) ^^^ 2 * clmulF z ((z + 1) / 2) y) = _
  rw [if_neg (show ¬ (z + 1 = 0) by omega),
    clmulF_congr z ((z + 1) / 2) ((z + 1) / 2) y (by omega) (by omega)]
  rfl

theorem two_mul_xor (a b : Nat) : 2 * (a ^^^ b) = 2 * a ^^^ 2 * b := by
  have h : ∀ c : Nat, 2 * c = c <<< 1 := by
    intro c
    rw [Nat.shiftLeft_eq]
    ring
  rw [h, h, h]
  apply Nat.eq_of_testBit_eq
  intro i
  simp only [Nat.testBit_shiftLeft, Nat.testBit_xor]
  rcases Nat.eq_zero_or_pos i with hi | hi
  · subst hi; simp
  · have hd : decide (1 ≤ i) = true := by simpa using hi
    simp [hd]

theorem xor4_comm (a b c d : Nat) : (a ^^^ b) ^^^ (c ^^^ d) = (a ^^^ c) ^^^ (b ^^^ d) := by
  rw [Nat.xor_assoc, Nat.xor_assoc]
  congr 1
  rw [← Nat.xor_assoc, ← Nat.xor_assoc, Nat.xor_comm b c]

theorem two_mul_xor_bit (m b : Nat) (hb : b < 2) : 2 * m ^^^ b = 2 * m + b := by
  rcases (show b = 0 ∨ b = 1 by omega) with rfl | rfl
  · simp
  · apply Nat.eq_of_testBit_eq
    intro i
    rcases Nat.eq_zero_or_pos i with rfl | hi
    · rw [Nat.testBit_xor]
      simp only [Nat.testBit_zero]
      have h1 : (2 * m) % 2 = 0 := by omega
      have h2 : (2 * m + 1) % 2 = 1 := by omega
      rw [h1, h2]
      decide
    · obtain ⟨j, rfl⟩ : ∃ j, i = j + 1 := ⟨i - 1, by omega⟩
      rw [Nat.testBit_xor, Nat.testBit_add_one, Nat.testBit_add_one, Nat.testBit_add_one]
      have h1 : (2 * m) / 2 = m := by omega
      have h2 : (2 * m + 1) / 2 = m := by omega
      have h3 : (1 : Nat) / 2 = 0 := by norm_num
      rw [h1, h2, h3, Nat.zero_testBit, Bool.xor_false]

theorem clmul_zero_right (x : Nat) : clmul x 0 = 0 := by
  induction x using Nat.strong_induction_on with
  | _ x ih =>
    rcases Nat.eq_zero_or_pos x with hx | hx
    · subst hx; rfl
    · rw [clmul_rec x 0 (by omega), ih (x / 2) (by omega)]
      simp

theorem clmul_one_left (y : Nat) : clmul 1 y = y := by
  rw [clmul_rec 1 y (by omega)]
  simp [clmul_zero_left]

theorem clmul_xor_right (x a b : Nat) : clmul x (a ^^^ b) = clmul x a ^^^ clmul x b := by
  induction x using Nat.strong_induction_on with
  | _ x ih =>
    rcases Nat.eq_zero_or_pos x with hx | hx
    · subst hx; simp [clmul_zero_left]
    · rw [clmul_rec x (a ^^^ b) (by omega), clmul_rec x a (by omega),
        clmul_rec x b (by omega), ih (x / 2) (by omega), two_mul_xor]
      rcases Nat.eq_zero_or_pos (x % 2) with hp | hp
      · rw [if_neg (show ¬ (x % 2 = 1) by omega), if_neg (show ¬ (x % 2 = 1) by omega),
          if_neg (show ¬ (x % 2 = 1) by omega)]
        simp only [Nat.zero_xor]
      · rw [if_pos (show x % 2 = 1 by omega), if_pos (show x % 2 = 1 by omega),
          if_pos (show x % 2 = 1 by omega)]
        exact xor4_comm a b (2 * clmul (x / 2) a) (2 * clmul (x / 2) b)

theorem clmul_two_mul_right (x y : Nat) : clmul x (2 * y) = 2 * clmul x y := by
  induction x using Nat.strong_induction_on with
  | _ x ih =>
    rcases Nat.eq_zero_or_pos x with hx | hx
    · subst hx; simp [clmul_zero_left]
    · rw [clmul_rec x (2 * y) (by omega), clmul_rec x y (by omega),
        ih (x / 2) (by omega), two_mul_xor]
      rcases Nat.eq_zero_or_pos (x % 2) with hp | hp
      · rw [if_neg (show ¬ (x % 2 = 1) by omega), if_neg (show ¬ (x % 2 = 1) by omega)]
      · rw [if_pos (show x % 2 = 1 by omega), if_pos (show x % 2 = 1 by omega)]

theorem clmul_one_right (x : Nat) : clmul x 1 = x := by
  induction x using Nat.strong_induction_on with
  | _ x ih =>
    rcases Nat.eq_zero_or_pos x with hx | hx
    · subst hx; rfl
    · rw [clmul_rec x 1 (by omega), ih (x / 2) (by omega)]
      rcases Nat.eq_zero_or_pos (x % 2) with hp | hp
      · rw [if_neg (show ¬ (x % 2 = 1) by omega), Nat.zero_xor]
        omega
      · rw [if_pos (show x % 2 = 1 by omega), Nat.xor_comm,
          two_mul_xor_bit (x / 2) 1 (by omega)]
        omega

theorem clmul_comm (x y : Nat) : clmul x y = clmul y x := by
  induction x using Nat.strong_induction_on with
  | _ x ih =>
    rcases Nat.eq_zero_or_pos x with hx | hx
    · subst hx; rw [clmul_zero_left, clmul_zero_right]
    · rw [clmul_rec x y (by omega), ih (x / 2) (by omega)]
      rcases Nat.eq_zero_or_pos (x % 2) with hp | hp
      · rw [if_neg (show ¬ (x % 2 = 1) by omega), Nat.zero_xor, ← clmul_two_mul_right]
        have hx2 : 2 * (x / 2) = x := by omega
        rw [hx2]
      · rw [if_pos (show x % 2 = 1 by omega)]
        have hx2 : x = 2 * (x / 2) ^^^ 1 := by
          rw [two_mul_xor_bit (x / 2) 1 (by omega)]
          omega
        conv_rhs => rw [hx2]
        rw [clmul_xor_right, clmul_two_mul_right, clmul_one_right, Nat.xor_comm]

theorem clmul_xor_left (a b y : Nat) : clmul (a ^^^ b) y = clmul a y ^^^ clmul b y := by
  rw [clmul_comm, clmul_xor_right, clmul_comm y a, clmul_comm y b]

theorem clmul_two_mul_left (x y : Nat) : clmul (2 * x) y = 2 * clmul x y := by
  rw [clmul_comm, clmul_two_mul_right, clmul_comm y x]

theorem clmul_assoc (a b c : Nat) : clmul (clmul a b) c = clmul a (clmul b c) := by
  induction a using Nat.strong_induction_on with
  | _ a ih =>
    rcases Nat.eq_zero_or_pos a with ha | ha
    · subst ha; rw [clmul_zero_left, clmul_zero_left, clmul_zero_left]
    · rw [clmul_rec a b (by omega), clmul_rec a (clmul b c) (by omega),
        clmul_xor_left, clmul_two_mul_left, ih (a / 2) (by omega)]
      rcases Nat.eq_zero_or_pos (a % 2) with hp | hp
      · rw [if_neg (show ¬ (a % 2 = 1) by omega), if_neg (show ¬ (a % 2 = 1) by omega),
          clmul_zero_left]
      · rw [if_pos (show a % 2 = 1 by omega), if_pos (show a % 2 = 1 by omega)]

theorem clmul_two_pow_left (s y : Nat) : clmul (2 ^ s) y = y * 2 ^ s := by
  induction s with
  | zero => simpa using clmul_one_left y
  | succ s ih =>
    have h : 2 ^ (s + 1) = 2 * 2 ^ s := by ring
    rw [h, clmul_two_mul_left, ih]
    ring

theorem clmul_ne_bound (q p n : Nat) (hp : bitLength p = n + 1) (hq : q ≠ 0) :
    2 ^ n ≤ clmul q p := by
  induction q using Nat.strong_induction_on with
  | _ q ih =>
    have hpne : p ≠ 0 := by
      intro h
      rw [h, bitLength_zero] at hp
      omega
    have hpB : 2 ^ n ≤ p := by
      have := two_pow_le_bitLength p hpne
      rw [hp] at this
      simpa using this
    have hpA : p < 2 ^ (n + 1) := by
      have := lt_two_pow_bitLength p
      rw [hp] at this
      exact this
    rcases Nat.eq_zero_or_pos (q / 2) with hq2 | hq2
    · have hq1 : q = 1 := by omega
      subst hq1
      rw [clmul_one_left]
      exact hpB
    · rw [clmul_rec q p hq]
      have hrec := ih (q / 2) (by omega) (by omega)
      have hdbl : 2 ^ (n + 1) ≤ 2 * clmul (q / 2) p := by
        rw [Nat.pow_succ]
        omega
      have hbit : (if q % 2 = 1 then p else 0) < 2 ^ (n + 1) := by
        rcases Nat.eq_zero_or_pos (q % 2) with hb | hb
        · rw [if_neg (show ¬ (q % 2 = 1) by omega)]
          exact Nat.two_pow_pos (n + 1)
        · rw [if_pos (show q % 2 = 1 by omega)]
          exact hpA
      have := two_pow_le_xor (n + 1) (2 * clmul (q / 2) p)
        ((if q % 2 = 1 then p else 0)) hdbl hbit
      have hmono : (2 : Nat) ^ n ≤ 2 ^ (n + 1) := Nat.pow_le_pow_right (by norm_num) (by omega)
      rw [Nat.xor_comm]
      omega

theorem congrModP_refl (p a : Nat) : CongrModP p a a :=
  ⟨0, by rw [Nat.xor_self, clmul_zero_left]⟩

theorem congrModP_symm (p a b : Nat) (h : CongrModP p a b) : CongrModP p b a := by
  obtain ⟨q, hq⟩ := h
  exact ⟨q, by rw [Nat.xor_comm]; exact hq⟩

theorem congrModP_trans (p a b c : Nat) (h1 : CongrModP p a b) (h2 : CongrModP p b c) :
    CongrModP p a c := by
  obtain ⟨q1, hq1⟩ := h1
  obtain ⟨q2, hq2⟩ := h2
  refine ⟨q1 ^^^ q2, ?_⟩
  rw [clmul_xor_left, ← hq1, ← hq2, ← Nat.xor_assoc, Nat.xor_assoc a b b,
    Nat.xor_self, Nat.xor_zero]

theorem congrModP_xor (p a b c d : Nat) (h1 : CongrModP p a b) (h2 : CongrModP p c d) :
    CongrModP p (a ^^^ c) (b ^^^ d) := by
  obtain ⟨q1, hq1⟩ := h1
  obtain ⟨q2, hq2⟩ := h2
  refine ⟨q1 ^^^ q2, ?_⟩
  rw [clmul_xor_left, ← hq1, ← hq2]
  exact xor4_comm a c b d

theorem congrModP_clmul_right (p m x y : Nat) (h : CongrModP p x y) :
    CongrModP p (clmul m x) (clmul m y) := by
  obtain ⟨q, hq⟩ := h
  refine ⟨clmul m q, ?_⟩
  rw [← clmul_xor_right, hq, clmul_assoc]

theorem congrModP_clmul_left (p m x y : Nat) (h : CongrModP p x y) :
    CongrModP p (clmul x m) (clmul y m) := by
  rw [clmul_comm x m, clmul_comm y m]
  exact congrModP_clmul_right p m x y h

theorem congrModP_two_mul (p x y : Nat) (h : CongrModP p x y) :
    CongrModP p (2 * x) (2 * y) := by
  obtain ⟨q, hq⟩ := h
  refine ⟨2 * q, ?_⟩
  rw [← two_mul_xor, hq, clmul_two_mul_left]

theorem congrModP_unique (p n a b : Nat) (hp : bitLength p = n + 1)
    (ha : a < 2 ^ n) (hb : b < 2 ^ n) (h : CongrModP p a b) : a = b := by
  obtain ⟨q, hq⟩ := h
  rcases Nat.eq_zero_or_pos q with hq0 | hq0
  · subst hq0
    rw [clmul_zero_left] at hq
    exact Nat.xor_eq_zero.mp hq
  · exfalso
    have h1 := clmul_ne_bound q p n hp (by omega)
    have h2 := Nat.xor_lt_two_pow ha hb
    omega

theorem lt_two_pow_of_testBit_false (z d : Nat) (h1 : z < 2 ^ (d + 1))
    (h2 : z.testBit d = false) : z < 2 ^ d := by
  by_contra hc
  push_neg at hc
  have hpow : 2 ^ (d + 1) = 2 ^ d * 2 := Nat.pow_succ 2 d
  have hdiv : z / 2 ^ d = 1 := Nat.div_eq_of_lt_le (by omega) (by omega)
  rw [Nat.testBit_to_div_mod, hdiv] at h2
  simp at h2

theorem reduceStep_lt (p n val : Nat) (hp : bitLength p = n + 1) (hv : 2 ^ n ≤ val) :
    reduceStep p n val < val := by
  have hpne : p ≠ 0 := by
    intro h
    rw [h, bitLength_zero] at hp
    omega
  have hvne : val ≠ 0 := by
    have := Nat.two_pow_pos n
    omega
  have hd : n + 1 ≤ bitLength val := by
    by_contra h
    push_neg at h
    have := (bitLength_le_iff val n).mp (by omega)
    omega
  set d := bitLength val - 1 with hdd
  have hbval : bitLength val = d + 1 := by omega
  have hsh : p <<< (d - n) = p * 2 ^ (d - n) := Nat.shiftLeft_eq p (d - n)
  have hblsh : bitLength (p * 2 ^ (d - n)) = d + 1 := by
    rw [bitLength_mul_two_pow p (d - n) hpne, hp]
    omega
  have hshne : p * 2 ^ (d - n) ≠ 0 := by
    have := Nat.two_pow_pos (d - n)
    positivity
  have htv : val.testBit d = true := by
    have := testBit_top val hvne
    rw [hbval] at this
    simpa using this
  have hts : (p * 2 ^ (d - n)).testBit d = true := by
    have := testBit_top (p * 2 ^ (d - n)) hshne
    rw [hblsh] at this
    simpa using this
  have hvlt : val < 2 ^ (d + 1) := by
    have := lt_two_pow_bitLength val
    rw [hbval] at this
    exact this
  have hshlt : p * 2 ^ (d - n) < 2 ^ (d + 1) := by
    have := lt_two_pow_bitLength (p * 2 ^ (d - n))
    rw [hblsh] at this
    exact this
  have hxlt : val ^^^ p * 2 ^ (d - n) < 2 ^ (d + 1) := Nat.xor_lt_two_pow hvlt hshlt
  have hbit : (val ^^^ p * 2 ^ (d - n)).testBit d = false := by
    rw [Nat.testBit_xor, htv, hts]
    rfl
  have hfin : val ^^^ p * 2 ^ (d - n) < 2 ^ d :=
    lt_two_pow_of_testBit_false _ d hxlt hbit
  have hdv : 2 ^ d ≤ val := by
    have := two_pow_le_bitLength val hvne
    rw [hbval] at this
    simpa using this
  show val ^^^ (p <<< (d - n)) < val
  rw [hsh]
  omega

theorem reduceStep_congr (p n val : Nat) (hp : bitLength p = n + 1) :
    CongrModP p val (reduceStep p n val) := by
  refine ⟨2 ^ (bitLength val - 1 - n), ?_⟩
  show val ^^^ (val ^^^ (p <<< (bitLength val - 1 - n))) = _
  rw [Nat.xor_cancel_left, clmul_two_pow_left, Nat.shiftLeft_eq]

theorem reduceF_congr (p n : Nat) (hp : bitLength p = n + 1) :
    ∀ f g val : Nat, val < f → val < g → reduceF p n f val = reduceF p n g val := by
  intro f
  induction f with
  | zero => intro g val hf; omega
  | succ f ih =>
    intro g val hf hg
    obtain ⟨g, rfl⟩ : ∃ k, g = k + 1 := ⟨g - 1, by omega⟩
    show (if val < 2 ^ n then val else reduceF p n f (reduceStep p n val))
       = (if val < 2 ^ n then val else reduceF p n g (reduceStep p n val))
    rcases Nat.lt_or_ge val (2 ^ n) with hv | hv
    · rw [if_pos hv, if_pos hv]
    · rw [if_neg (by omega), if_neg (by omega)]
      have hlt := reduceStep_lt p n val hp hv
      exact ih g (reduceStep p n val) (by omega) (by omega)

theorem reduce_modp_of_lt (p n val : Nat) (hv : val < 2 ^ n) :
    reduce_modp p n val = val := by
  show (if val < 2 ^ n then val else reduceF p n val (reduceStep p n val)) = val
  rw [if_pos hv]

theorem reduce_modp_rec (p n val : Nat) (hp : bitLength p = n + 1) (hv : 2 ^ n ≤ val) :
    reduce_modp p n val = reduce_modp p n (reduceStep p n val) := by
  have hlt := reduceStep_lt p n val hp hv
  show (if val < 2 ^ n then val else reduceF p n val (reduceStep p n val)) = _
  rw [if_neg (by omega)]
  exact reduceF_congr p n hp val (reduceStep p n val + 1) (reduceStep p n val)
    (by omega) (by omega)

theorem reduce_modp_lt (p n val : Nat) (hp : bitLength p = n + 1) :
    reduce_modp p n val < 2 ^ n := by
  induction val using Nat.strong_induction_on with
  | _ val ih =>
    rcases Nat.lt_or_ge val (2 ^ n) with hv | hv
    · rw [reduce_modp_of_lt p n val hv]
      exact hv
    · rw [reduce_modp_rec p n val hp hv]
      exact ih (reduceStep p n val) (reduceStep_lt p n val hp hv)

theorem reduce_modp_congr_self (p n val : Nat) (hp : bitLength p = n + 1) :
    CongrModP p val (reduce_modp p n val) := by
  induction val using Nat.strong_induction_on with
  | _ val ih =>
    rcases Nat.lt_or_ge val (2 ^ n) with hv | hv
    · rw [reduce_modp_of_lt p n val hv]
      exact congrModP_refl p val
    · rw [reduce_modp_rec p n val hp hv]
      exact congrModP_trans p _ _ _ (reduceStep_congr p n val hp)
        (ih (reduceStep p n val) (reduceStep_lt p n val hp hv))

theorem reduce_modp_congr (p n a b : Nat) (hp : bitLength p = n + 1)
    (h : CongrModP p a b) : reduce_modp p n a = reduce_modp p n b := by
  apply congrModP_unique p n _ _ hp (reduce_modp_lt p n a hp) (reduce_modp_lt p n b hp)
  apply congrModP_trans p _ a _
  · exact congrModP_symm p a _ (reduce_modp_congr_self p n a hp)
  · exact congrModP_trans p a b _ h (reduce_modp_congr_self p n b hp)

theorem GF2n_eta (P : Nat) (a : GF2n) (ha : a.p = P) : a = ⟨P, a.val⟩ := by
  cases a
  simp_all

theorem init_p (P v : Nat) : (GF2n.init P v).p = P := rfl

theorem init_val (P n v : Nat) (hp : bitLength P = n + 1) :
    (GF2n.init P v).val = reduce_modp P n v := by
  show reduce_modp P (bitLength P - 1) v = reduce_modp P n v
  rw [hp, Nat.add_sub_cancel]

theorem init_eq (P n v : Nat) (hp : bitLength P = n + 1) :
    GF2n.init P v = ⟨P, reduce_modp P n v⟩ := by
  show (⟨P, reduce_modp P (bitLength P - 1) v⟩ : GF2n) = _
  rw [hp, Nat.add_sub_cancel]

theorem init_val_lt (P n v : Nat) (hp : bitLength P = n + 1) :
    (GF2n.init P v).val < 2 ^ n := by
  rw [init_val P n v hp]
  exact reduce_modp_lt P n v hp

theorem init_of_lt (P n v : Nat) (hp : bitLength P = n + 1) (hv : v < 2 ^ n) :
    GF2n.init P v = ⟨P, v⟩ := by
  show (⟨P, reduce_modp P (bitLength P - 1) v⟩ : GF2n) = ⟨P, v⟩
  rw [hp]
  show (⟨P, reduce_modp P (n + 1 - 1) v⟩ : GF2n) = ⟨P, v⟩
  rw [show n + 1 - 1 = n by omega, reduce_modp_of_lt P n v hv]

theorem init_congr (P n v w : Nat) (hp : bitLength P = n + 1)
    (h : CongrModP P v w) : GF2n.init P v = GF2n.init P w := by
  show (⟨P, reduce_modp P (bitLength P - 1) v⟩ : GF2n) = ⟨P, reduce_modp P (bitLength P - 1) w⟩
  rw [hp, show n + 1 - 1 = n by omega, reduce_modp_congr P n v w hp h]

theorem gfn_eq (P n : Nat) (a : GF2n) (hp : bitLength P = n + 1) (ha : a.p = P) :
    a.n = n := by
  show bitLength a.p - 1 = n
  rw [ha, hp]
  omega

theorem add_eq (P n : Nat) (a b : GF2n) (hp : bitLength P = n + 1)
    (ha : a.p = P) (hav : a.val < 2 ^ n) (hbv : b.val < 2 ^ n) :
    GF2n.add a b = ⟨P, a.val ^^^ b.val⟩ := by
  show GF2n.init a.p (a.val ^^^ b.val) = _
  rw [ha]
  exact init_of_lt P n _ hp (Nat.xor_lt_two_pow hav hbv)

theorem double_eq (P n : Nat) (a : GF2n) (hp : bitLength P = n + 1) (ha : a.p = P) :
    GF2n.double a = ⟨P, reduce_modp P n (2 * a.val)⟩ := by
  show GF2n.init a.p (if 2 * a.val ≥ 2 ^ a.n then 2 * a.val ^^^ a.p else 2 * a.val) = _
  rw [ha, gfn_eq P n a hp ha]
  rcases Nat.lt_or_ge (2 * a.val) (2 ^ n) with hlt | hge
  · rw [if_neg (by omega)]
    show (⟨P, reduce_modp P (bitLength P - 1) (2 * a.val)⟩ : GF2n) = _
    rw [hp, show n + 1 - 1 = n by omega]
  · rw [if_pos (by omega)]
    show (⟨P, reduce_modp P (bitLength P - 1) (2 * a.val ^^^ P)⟩ : GF2n) = _
    rw [hp, show n + 1 - 1 = n by omega]
    have hcg : CongrModP P (2 * a.val ^^^ P) (2 * a.val) := by
      refine ⟨1, ?_⟩
      rw [clmul_one_left, Nat.xor_comm (2 * a.val) P, Nat.xor_assoc, Nat.xor_self,
        Nat.xor_zero]
    rw [reduce_modp_congr P n _ _ hp hcg]

theorem double_p (a : GF2n) : (GF2n.double a).p = a.p := rfl

theorem add_p (a b : GF2n) : (GF2n.add a b).p = a.p := rfl

theorem clmul_two_right (x : Nat) : clmul x 2 = 2 * x := by
  have h := clmul_two_mul_right x 1
  rw [clmul_one_right] at h
  simpa using h

theorem mulAccF_spec (P n : Nat) (hp : bitLength P = n + 1) :
    ∀ f m : Nat, ∀ pw r : GF2n, m ≤ f → pw.p = P → r.p = P → r.val < 2 ^ n →
    GF2n.mulAccF f pw r m = ⟨P, reduce_modp P n (r.val ^^^ clmul pw.val m)⟩ := by
  intro f
  induction f with
  | zero =>
    intro m pw r hm hpw hr hrv
    have hm0 : m = 0 := by omega
    subst hm0
    show r = _
    rw [clmul_zero_right, Nat.xor_zero, reduce_modp_of_lt P n r.val hrv]
    exact GF2n_eta P r hr
  | succ f ih =>
    intro m pw r hm hpw hr hrv
    rcases Nat.eq_zero_or_pos m with hm0 | hm0
    · subst hm0
      show r = _
      rw [clmul_zero_right, Nat.xor_zero, reduce_modp_of_lt P n r.val hrv]
      exact GF2n_eta P r hr
    · show GF2n.mulAccF (f + 1) pw r m = _
      rw [show GF2n.mulAccF (f + 1) pw r m
          = (if m = 0 then r
             else GF2n.mulAccF f (GF2n.double pw)
               (if m % 2 = 1 then GF2n.add r pw else r) (m / 2)) from rfl,
        if_neg (by omega)]
      set r2 : GF2n := if m % 2 = 1 then GF2n.add r pw else r with hr2
      have hr2p : r2.p = P := by
        rw [hr2]
        rcases Nat.eq_zero_or_pos (m % 2) with hb | hb
        · rw [if_neg (by omega)]; exact hr
        · rw [if_pos (by omega), add_p, hr]
      have hr2v : r2.val < 2 ^ n := by
        rw [hr2]
        rcases Nat.eq_zero_or_pos (m % 2) with hb | hb
        · rw [if_neg (by omega)]; exact hrv
        · rw [if_pos (by omega)]
          show (GF2n.init r.p (r.val ^^^ pw.val)).val < 2 ^ n
          rw [hr]
          exact init_val_lt P n _ hp
      rw [ih (m / 2) (GF2n.double pw) r2 (by omega) (by rw [double_p, hpw]) hr2p hr2v]
      apply congrArg (fun w => GF2n.mk P w)
      apply reduce_modp_congr P n _ _ hp
      have hdv : (GF2n.double pw).val = reduce_modp P n (2 * pw.val) := by
        rw [double_eq P n pw hp hpw]
      have hc1 : CongrModP P (clmul (GF2n.double pw).val (m / 2))
          (2 * clmul pw.val (m / 2)) := by
        rw [hdv, ← clmul_two_mul_left]
        exact congrModP_clmul_left P (m / 2) _ _
          (congrModP_symm P _ _ (reduce_modp_congr_self P n (2 * pw.val) hp))
      have hsplit : clmul pw.val m
          = 2 * clmul pw.val (m / 2) ^^^ (if m % 2 = 1 then pw.val else 0) := by
        have hm2 : m = 2 * (m / 2) ^^^ m % 2 := by
          rw [two_mul_xor_bit (m / 2) (m % 2) (by omega)]
          omega
        conv_lhs => rw [hm2]
        rw [clmul_xor_right, clmul_two_mul_right]
        rcases Nat.eq_zero_or_pos (m % 2) with hb | hb
        · rw [hb, clmul_zero_right, if_neg (by omega)]
        · rw [show m % 2 = 1 by omega, clmul_one_right, if_pos rfl]
      rw [hsplit]
      have hc2 : CongrModP P r2.val (r.val ^^^ (if m % 2 = 1 then pw.val else 0)) := by
        rw [hr2]
        rcases Nat.eq_zero_or_pos (m % 2) with hb | hb
        · rw [if_neg (by omega), if_neg (by omega), Nat.xor_zero]
          exact congrModP_refl P r.val
        · rw [if_pos (by omega), if_pos (by omega)]
          show CongrModP P (GF2n.init r.p (r.val ^^^ pw.val)).val _
          rw [hr, init_val P n _ hp]
          exact congrModP_symm P _ _ (reduce_modp_congr_self P n _ hp)
      have hc3 := congrModP_xor P _ _ _ _ hc2 hc1
      have hac : (r.val ^^^ (if m % 2 = 1 then pw.val else 0)) ^^^ 2 * clmul pw.val (m / 2)
          = r.val ^^^ (2 * clmul pw.val (m / 2) ^^^ (if m % 2 = 1 then pw.val else 0)) := by
        rw [Nat.xor_assoc]
        congr 1
        rw [Nat.xor_comm]
      rw [hac] at hc3
      exact hc3

theorem mulGeneral_spec (P n : Nat) (a : GF2n) (m : Nat) (hp : bitLength P = n + 1)
    (ha : a.p = P) : GF2n.mulGeneral a m = ⟨P, reduce_modp P n (clmul a.val m)⟩ := by
  show GF2n.mulAccF m (GF2n.init a.p a.val) (GF2n.init a.p 0) m = _
  rw [ha, mulAccF_spec P n hp m m (GF2n.init P a.val) (GF2n.init P 0) (by omega) rfl rfl
    (init_val_lt P n 0 hp)]
  apply congrArg (fun w => GF2n.mk P w)
  apply reduce_modp_congr P n _ _ hp
  have h0 : (GF2n.init P 0).val = 0 := by
    rw [init_of_lt P n 0 hp (Nat.two_pow_pos n)]
  rw [h0, Nat.zero_xor, init_val P n a.val hp]
  exact congrModP_clmul_left P m _ _
    (congrModP_symm P _ _ (reduce_modp_congr_self P n a.val hp))

theorem mul_spec (P n : Nat) (a b : GF2n) (hp : bitLength P = n + 1) (hn : 1 ≤ n)
    (ha : a.p = P) (hb : b.p = P) :
    GF2n.mul a b = ⟨P, reduce_modp P n (clmul a.val b.val)⟩ := by
  have h1 : (GF2n.init b.p 1).val = 1 := by
    rw [hb, init_of_lt P n 1 hp (by
      have : (2 : Nat) ^ 1 ≤ 2 ^ n := Nat.pow_le_pow_right (by norm_num) hn
      omega)]
  show (if b.val = (GF2n.init b.p 1).val then GF2n.init a.p a.val
    else if b.val = (GF2n.init b.p 2).val then GF2n.double a
    else GF2n.mulGeneral a b.val) = _
  rcases eq_or_ne b.val ((GF2n.init b.p 1).val) with hb1 | hb1
  · rw [if_pos hb1]
    rw [h1] at hb1
    rw [hb1, clmul_one_right, ha, init_eq P n a.val hp]
  · rw [if_neg hb1]
    rcases eq_or_ne b.val ((GF2n.init b.p 2).val) with hb2 | hb2
    · rw [if_pos hb2, double_eq P n a hp ha]
      apply congrArg (fun w => GF2n.mk P w)
      apply reduce_modp_congr P n _ _ hp
      rw [hb2, hb, init_val P n 2 hp, ← clmul_two_right a.val]
      exact congrModP_symm P _ _ (congrModP_clmul_right P a.val _ _
        (congrModP_symm P _ _ (reduce_modp_congr_self P n 2 hp)))
    · rw [if_neg hb2]
      exact mulGeneral_spec P n a b.val hp ha

theorem mulInt_spec (P n : Nat) (a : GF2n) (k : Nat) (hp : bitLength P = n + 1)
    (ha : a.p = P) : GF2n.mulInt a k = ⟨P, reduce_modp P n (clmul a.val k)⟩ := by
  show (if k = 1 then GF2n.init a.p a.val
    else if k = 2 then GF2n.double a
    else GF2n.mulGeneral a ((GF2n.init a.p k).val)) = _
  rcases eq_or_ne k 1 with hk1 | hk1
  · rw [if_pos hk1, hk1, clmul_one_right, ha, init_eq P n a.val hp]
  · rw [if_neg hk1]
    rcases eq_or_ne k 2 with hk2 | hk2
    · rw [if_pos hk2, hk2, clmul_two_right, double_eq P n a hp ha]
    · rw [if_neg hk2, mulGeneral_spec P n a _ hp ha]
      apply congrArg (fun w => GF2n.mk P w)
      apply reduce_modp_congr P n _ _ hp
      rw [ha, init_val P n k hp]
      exact congrModP_clmul_right P a.val _ _
        (congrModP_symm P _ _ (reduce_modp_congr_self P n k hp))

theorem mul_p (P n : Nat) (a b : GF2n) (hp : bitLength P = n + 1) (hn : 1 ≤ n)
    (ha : a.p = P) (hb : b.p = P) : (GF2n.mul a b).p = P := by
  rw [mul_spec P n a b hp hn ha hb]

theorem mul_val_lt (P n : Nat) (a b : GF2n) (hp : bitLength P = n + 1) (hn : 1 ≤ n)
    (ha : a.p = P) (hb : b.p = P) : (GF2n.mul a b).val < 2 ^ n := by
  rw [mul_spec P n a b hp hn ha hb]
  exact reduce_modp_lt P n _ hp

theorem mul_comm_thm (P n : Nat) (a b : GF2n) (hp : bitLength P = n + 1) (hn : 1 ≤ n)
    (ha : a.p = P) (hb : b.p = P) : GF2n.mul a b = GF2n.mul b a := by
  rw [mul_spec P n a b hp hn ha hb, mul_spec P n b a hp hn hb ha, clmul_comm]

theorem mul_assoc_thm (P n : Nat) (a b c : GF2n) (hp : bitLength P = n + 1) (hn : 1 ≤ n)
    (ha : a.p = P) (hb : b.p = P) (hc : c.p = P) :
    GF2n.mul (GF2n.mul a b) c = GF2n.mul a (GF2n.mul b c) := by
  rw [mul_spec P n (GF2n.mul a b) c hp hn (mul_p P n a b hp hn ha hb) hc,
    mul_spec P n a (GF2n.mul b c) hp hn ha (mul_p P n b c hp hn hb hc),
    mul_spec P n a b hp hn ha hb, mul_spec P n b c hp hn hb hc]
  apply congrArg (fun w => GF2n.mk P w)
  have h1 : CongrModP P (clmul (reduce_modp P n (clmul a.val b.val)) c.val)
      (clmul (clmul a.val b.val) c.val) :=
    congrModP_clmul_left P c.val _ _
      (congrModP_symm P _ _ (reduce_modp_congr_self P n _ hp))
  have h2 : CongrModP P (clmul a.val (reduce_modp P n (clmul b.val c.val)))
      (clmul a.val (clmul b.val c.val)) :=
    congrModP_clmul_right P a.val _ _
      (congrModP_symm P _ _ (reduce_modp_congr_self P n _ hp))
  rw [reduce_modp_congr P n _ _ hp h1, reduce_modp_congr P n _ _ hp h2, clmul_assoc]

theorem one_mul_thm (P n : Nat) (a : GF2n) (hp : bitLength P = n + 1) (hn : 1 ≤ n)
    (ha : a.p = P) (hav : a.val < 2 ^ n) : GF2n.mul (GF2n.init P 1) a = a := by
  have h2n : (2 : Nat) ≤ 2 ^ n := by
    have : (2 : Nat) ^ 1 ≤ 2 ^ n := Nat.pow_le_pow_right (by norm_num) hn
    omega
  rw [mul_spec P n (GF2n.init P 1) a hp hn (init_p P 1) ha,
    init_of_lt P n 1 hp (by omega)]
  show (⟨P, reduce_modp P n (clmul 1 a.val)⟩ : GF2n) = a
  rw [clmul_one_left, reduce_modp_of_lt P n a.val hav]
  exact (GF2n_eta P a ha).symm

theorem npow_p (P n : Nat) (a : GF2n) (hp : bitLength P = n + 1) (hn : 1 ≤ n)
    (ha : a.p = P) : ∀ k, (GF2n.npow a k).p = P := by
  intro k
  induction k with
  | zero => show (GF2n.init a.p 1).p = P; rw [init_p, ha]
  | succ k ih => exact mul_p P n _ a hp hn ih ha

theorem npow_val_lt (P n : Nat) (a : GF2n) (hp : bitLength P = n + 1) (hn : 1 ≤ n)
    (ha : a.p = P) : ∀ k, (GF2n.npow a k).val < 2 ^ n := by
  intro k
  cases k with
  | zero =>
    show (GF2n.init a.p 1).val < 2 ^ n
    rw [ha]
    exact init_val_lt P n 1 hp
  | succ k => exact mul_val_lt P n _ a hp hn (npow_p P n a hp hn ha k) ha

theorem gf_npow_one (P n : Nat) (a : GF2n) (hp : bitLength P = n + 1) (hn : 1 ≤ n)
    (ha : a.p = P) (hav : a.val < 2 ^ n) : GF2n.npow a 1 = a := by
  show GF2n.mul (GF2n.init a.p 1) a = a
  rw [ha]
  exact one_mul_thm P n a hp hn ha hav

theorem gf_npow_add (P n : Nat) (a : GF2n) (hp : bitLength P = n + 1) (hn : 1 ≤ n)
    (ha : a.p = P) : ∀ m k, GF2n.npow a (m + k) = GF2n.mul (GF2n.npow a m) (GF2n.npow a k) := by
  intro m k
  induction k with
  | zero =>
    show GF2n.npow a m = GF2n.mul (GF2n.npow a m) (GF2n.init a.p 1)
    rw [ha, mul_spec P n (GF2n.npow a m) (GF2n.init P 1) hp hn (npow_p P n a hp hn ha m)
      (init_p P 1)]
    have h2n : (2 : Nat) ≤ 2 ^ n := by
      have : (2 : Nat) ^ 1 ≤ 2 ^ n := Nat.pow_le_pow_right (by norm_num) hn
      omega
    rw [init_of_lt P n 1 hp (by omega)]
    show GF2n.npow a m = ⟨P, reduce_modp P n (clmul (GF2n.npow a m).val 1)⟩
    rw [clmul_one_right, reduce_modp_of_lt P n _ (npow_val_lt P n a hp hn ha m)]
    exact GF2n_eta P _ (npow_p P n a hp hn ha m)
  | succ k ih =>
    show GF2n.mul (GF2n.npow a (m + k)) a = GF2n.mul (GF2n.npow a m) (GF2n.mul (GF2n.npow a k) a)
    rw [ih, mul_assoc_thm P n _ _ a hp hn (npow_p P n a hp hn ha m) (npow_p P n a hp hn ha k) ha]

theorem bitsVal_nil (v : Nat) : bitsVal [] v = v := rfl

theorem bitsVal_cons (b : Bool) (ds : List Bool) (v : Nat) :
    bitsVal (b :: ds) v = bitsVal ds (2 * v + (if b then 1 else 0)) := rfl

theorem bitsVal_append (ds : List Bool) (b : Bool) (v : Nat) :
    bitsVal (ds ++ [b]) v = 2 * bitsVal ds v + (if b then 1 else 0) := by
  show List.foldl _ v (ds ++ [b]) = _
  rw [List.foldl_append]
  rfl

theorem ladder_fold (P n : Nat) (a : GF2n) (hp : bitLength P = n + 1) (hn : 1 ≤ n)
    (ha : a.p = P) :
    ∀ ds : List Bool, ∀ v : Nat,
      List.foldl GF2n.ladderStep (GF2n.npow a v, GF2n.npow a (v + 1)) ds
        = (GF2n.npow a (bitsVal ds v), GF2n.npow a (bitsVal ds v + 1)) := by
  intro ds
  induction ds with
  | nil => intro v; rfl
  | cons b ds ih =>
    intro v
    show List.foldl GF2n.ladderStep
      (GF2n.ladderStep (GF2n.npow a v, GF2n.npow a (v + 1)) b) ds = _
    rw [bitsVal_cons]
    cases b with
    | false =>
      have hstep : GF2n.ladderStep (GF2n.npow a v, GF2n.npow a (v + 1)) false
          = (GF2n.npow a (2 * v), GF2n.npow a (2 * v + 1)) := by
        show (GF2n.mul (GF2n.npow a v) (GF2n.npow a v),
          GF2n.mul (GF2n.npow a v) (GF2n.npow a (v + 1))) = _
        rw [← gf_npow_add P n a hp hn ha v v, ← gf_npow_add P n a hp hn ha v (v + 1)]
        rw [show v + v = 2 * v by omega, show v + (v + 1) = 2 * v + 1 by omega]
      rw [hstep, ih (2 * v)]
      rw [show 2 * v + (if (false : Bool) then 1 else 0) = 2 * v from by simp]
    | true =>
      have hstep : GF2n.ladderStep (GF2n.npow a v, GF2n.npow a (v + 1)) true
          = (GF2n.npow a (2 * v + 1), GF2n.npow a (2 * v + 1 + 1)) := by
        show (GF2n.mul (GF2n.npow a v) (GF2n.npow a (v + 1)),
          GF2n.mul (GF2n.npow a (v + 1)) (GF2n.npow a (v + 1))) = _
        rw [← gf_npow_add P n a hp hn ha v (v + 1), ← gf_npow_add P n a hp hn ha (v + 1) (v + 1)]
        rw [show v + (v + 1) = 2 * v + 1 by omega, show v + 1 + (v + 1) = 2 * v + 1 + 1 by omega]
      rw [hstep, ih (2 * v + 1)]
      rw [show 2 * v + (if (true : Bool) then 1 else 0) = 2 * v + 1 from by simp]

theorem bitsF_zero (f : Nat) : bitsF f 0 = [] := by cases f <;> rfl

theorem bitsF_congr : ∀ f g x : Nat, x ≤ f → x ≤ g → bitsF f x = bitsF g x := by
  intro f
  induction f with
  | zero =>
    intro g x hf _
    have hx : x = 0 := Nat.le_zero.mp hf
    subst hx
    rw [bitsF_zero, bitsF_zero]
  | succ f ih =>
    intro g x hf hg
    rcases Nat.eq_zero_or_pos x with hx | hx
    · subst hx; rw [bitsF_zero, bitsF_zero]
    · obtain ⟨g, rfl⟩ : ∃ k, g = k + 1 := ⟨g - 1, by omega⟩
      have hne : ¬ (x = 0) := by omega
      show (if x = 0 then [] else (x % 2 == 1) :: bitsF f (x / 2))
         = (if x = 0 then [] else (x % 2 == 1) :: bitsF g (x / 2))
      rw [if_neg hne, if_neg hne, ih g (x / 2) (by omega) (by omega)]

theorem bitsF_rec (x : Nat) (hx : x ≠ 0) :
    bitsF x x = (x % 2 == 1) :: bitsF (x / 2) (x / 2) := by
  obtain ⟨z, rfl⟩ : ∃ z, x = z + 1 := ⟨x - 1, by omega⟩
  show (if z + 1 = 0 then [] else ((z + 1) % 2 == 1) :: bitsF z ((z + 1) / 2)) = _
  rw [if_neg (by omega), bitsF_congr z ((z + 1) / 2) ((z + 1) / 2) (by omega) (by omega)]

theorem bitsVal_rev_bitsF (x : Nat) :
    ∀ v : Nat, bitsVal (bitsF x x).reverse v = v * 2 ^ (bitsF x x).length + x := by
  induction x using Nat.strong_induction_on with
  | _ x ih =>
    intro v
    rcases Nat.eq_zero_or_pos x with hx | hx
    · subst hx
      rw [bitsF_zero]
      show v = v * 2 ^ ([] : List Bool).length + 0
      simp
    · rw [bitsF_rec x (by omega), List.reverse_cons, bitsVal_append,
        ih (x / 2) (by omega) v, List.length_cons, Nat.pow_succ]
      have hbit : (if (x % 2 == 1) then 1 else 0) = x % 2 := by
        rcases Nat.eq_zero_or_pos (x % 2) with hb | hb
        · rw [hb]; rfl
        · rw [show x % 2 = 1 by omega]; rfl
      rw [hbit]
      ring_nf
      omega

theorem binDigits_val (e : Nat) : bitsVal (binDigits e) 0 = e := by
  show bitsVal (if e = 0 then [false] else (bitsF e e).reverse) 0 = e
  rcases Nat.eq_zero_or_pos e with he | he
  · subst he; rfl
  · rw [if_neg (by omega), bitsVal_rev_bitsF e 0]
    omega

theorem binDigits_ne_nil (x : Nat) : binDigits x ≠ [] := by
  show (if x = 0 then [false] else (bitsF x x).reverse) ≠ []
  rcases Nat.eq_zero_or_pos x with hx | hx
  · subst hx; simp
  · rw [if_neg (by omega), bitsF_rec x (by omega)]
    simp

theorem pow_natCast (P n : Nat) (a : GF2n) (e : Nat) (hp : bitLength P = n + 1) (hn : 1 ≤ n)
    (ha : a.p = P) (hav : a.val < 2 ^ n) : GF2n.pow a (e : Int) = GF2n.npow a e := by
  show (List.foldl GF2n.ladderStep (GF2n.init a.p 1, GF2n.init a.p a.val) (powDigits e)).1 = _
  have hdig : powDigits (e : Int) = binDigits e := by
    show (if (e : Int) < 0 then true :: binDigits (-(e : Int)).toNat
      else binDigits ((e : Int)).toNat) = _
    rw [if_neg (by omega)]
    norm_num
  have h0 : GF2n.init a.p 1 = GF2n.npow a 0 := rfl
  have h1 : GF2n.init a.p a.val = GF2n.npow a 1 := by
    rw [gf_npow_one P n a hp hn ha hav, ha, init_of_lt P n a.val hp hav]
    exact (GF2n_eta P a ha).symm
  rw [hdig, h0, h1]
  have := ladder_fold P n a hp hn ha (binDigits e) 0
  rw [show (0 : Nat) + 1 = 1 by omega] at this
  rw [this, binDigits_val]

theorem ladder_closure (P n : Nat) (hp : bitLength P = n + 1) (hn : 1 ≤ n) :
    ∀ ds : List Bool, ∀ xp : GF2n × GF2n, xp.1.p = P → xp.2.p = P →
      ((List.foldl GF2n.ladderStep xp ds).1.p = P
        ∧ (List.foldl GF2n.ladderStep xp ds).2.p = P)
      ∧ (ds ≠ [] → (List.foldl GF2n.ladderStep xp ds).1.val < 2 ^ n) := by
  intro ds
  induction ds with
  | nil =>
    intro xp h1 h2
    exact ⟨⟨h1, h2⟩, fun h => absurd rfl h⟩
  | cons b ds ih =>
    intro xp h1 h2
    have hstep : (GF2n.ladderStep xp b).1.p = P ∧ (GF2n.ladderStep xp b).2.p = P
        ∧ (GF2n.ladderStep xp b).1.val < 2 ^ n := by
      cases b with
      | false =>
        exact ⟨mul_p P n xp.1 xp.1 hp hn h1 h1, mul_p P n xp.1 xp.2 hp hn h1 h2,
          mul_val_lt P n xp.1 xp.1 hp hn h1 h1⟩
      | true =>
        exact ⟨mul_p P n xp.1 xp.2 hp hn h1 h2, mul_p P n xp.2 xp.2 hp hn h2 h2,
          mul_val_lt P n xp.1 xp.2 hp hn h1 h2⟩
    show ((List.foldl GF2n.ladderStep (GF2n.ladderStep xp b) ds).1.p = P
        ∧ (List.foldl GF2n.ladderStep (GF2n.ladderStep xp b) ds).2.p = P)
      ∧ (b :: ds ≠ [] → (List.foldl GF2n.ladderStep (GF2n.ladderStep xp b) ds).1.val < 2 ^ n)
    rcases ds with _ | ⟨d, ds2⟩
    · exact ⟨⟨hstep.1, hstep.2.1⟩, fun _ => hstep.2.2⟩
    · have := ih (GF2n.ladderStep xp b) hstep.1 hstep.2.1
      exact ⟨this.1, fun _ => this.2 (by simp)⟩

theorem powDigits_ne_nil (e : Int) : powDigits e ≠ [] := by
  show (if e < 0 then true :: binDigits (-e).toNat else binDigits e.toNat) ≠ []
  rcases lt_or_ge e 0 with he | he
  · rw [if_pos he]; simp
  · rw [if_neg (by omega)]; exact binDigits_ne_nil _

theorem bitsF_pow_add : ∀ L m : Nat, m < 2 ^ L →
    bitsF (2 ^ L + m) (2 ^ L + m) = padBits L m ++ [true] := by
  intro L
  induction L with
  | zero =>
    intro m hm
    have hm0 : m = 0 := by omega
    subst hm0
    decide
  | succ L ih =>
    intro m hm
    have hpow : 2 ^ (L + 1) = 2 ^ L * 2 := Nat.pow_succ 2 L
    have hx : 2 ^ (L + 1) + m ≠ 0 := by
      have := Nat.two_pow_pos (L + 1)
      omega
    rw [bitsF_rec _ hx]
    have hmod : (2 ^ (L + 1) + m) % 2 = m % 2 := by omega
    have hdiv : (2 ^ (L + 1) + m) / 2 = 2 ^ L + m / 2 := by omega
    rw [hmod, hdiv, ih (m / 2) (by omega)]
    rfl

theorem padBits_eq_bitsF : ∀ L m : Nat, m ≠ 0 → bitLength m = L → padBits L m = bitsF m m := by
  intro L
  induction L with
  | zero =>
    intro m hm hbl
    exact absurd hbl (by have := bitLength_pos m hm; omega)
  | succ L ih =>
    intro m hm hbl
    rw [bitsF_rec m hm]
    show (m % 2 == 1) :: padBits L (m / 2) = (m % 2 == 1) :: bitsF (m / 2) (m / 2)
    rcases Nat.eq_zero_or_pos (m / 2) with h2 | h2
    · have hL : L = 0 := by
        rw [bitLength_succ m hm, h2, bitLength_zero] at hbl
        omega
      rw [h2, hL, bitsF_zero]
      rfl
    · rw [ih (m / 2) (by omega) (by rw [bitLength_succ m hm] at hbl; omega)]

theorem binDigits_pow_add (m : Nat) (hm : m ≠ 0) :
    binDigits (2 ^ bitLength m + m) = true :: binDigits m := by
  have hlt : m < 2 ^ bitLength m := lt_two_pow_bitLength m
  have hx : 2 ^ bitLength m + m ≠ 0 := by
    have := Nat.two_pow_pos (bitLength m)
    omega
  show (if 2 ^ bitLength m + m = 0 then [false]
    else (bitsF (2 ^ bitLength m + m) (2 ^ bitLength m + m)).reverse)
    = true :: (if m = 0 then [false] else (bitsF m m).reverse)
  rw [if_neg hx, if_neg hm, bitsF_pow_add (bitLength m) m hlt,
    padBits_eq_bitsF (bitLength m) m hm rfl, List.reverse_append]
  rfl

theorem toBytesBE_length : ∀ len x : Nat, (toBytesBE len x).length = len := by
  intro len
  induction len with
  | zero => intro x; rfl
  | succ len ih =>
    intro x
    show (toBytesBE len (x / 256) ++ [x % 256]).length = len + 1
    rw [List.length_append, ih (x / 256)]
    rfl

theorem fromBytesBE_append (l : List Nat) (b : Nat) :
    fromBytesBE (l ++ [b]) = 256 * fromBytesBE l + b := by
  show List.foldl _ 0 (l ++ [b]) = _
  rw [List.foldl_append]
  show fromBytesBE l * 256 + b = _
  ring

theorem fromBytesBE_toBytesBE : ∀ len x : Nat, x < 256 ^ len →
    fromBytesBE (toBytesBE len x) = x := by
  intro len
  induction len with
  | zero =>
    intro x hx
    have : x = 0 := by simpa using hx
    subst this
    rfl
  | succ len ih =>
    intro x hx
    show fromBytesBE (toBytesBE len (x / 256) ++ [x % 256]) = x
    have hpow : 256 ^ (len + 1) = 256 ^ len * 256 := Nat.pow_succ 256 len
    rw [fromBytesBE_append, ih (x / 256) (by omega)]
    omega

theorem testBit_lt_bitLength (v i : Nat) (h : v.testBit i = true) : i < bitLength v := by
  by_contra hc
  push_neg at hc
  have h1 : v < 2 ^ i := by
    have := lt_two_pow_bitLength v
    have := Nat.pow_le_pow_right (show 1 ≤ 2 by norm_num) hc
    omega
  rw [Nat.testBit_lt_two_pow h1] at h
  exact Bool.false_ne_true h

theorem bitIdxDesc_sorted (v : Nat) : List.Pairwise (· > ·) (bitIdxDesc v) := by
  apply List.pairwise_reverse.mpr
  exact List.Pairwise.filter _ (List.sorted_lt_range (bitLength v))

theorem bitIdxDesc_mem (v i : Nat) : i ∈ bitIdxDesc v ↔ v.testBit i = true := by
  show i ∈ ((List.range (bitLength v)).filter (fun i => v.testBit i)).reverse ↔ _
  rw [List.mem_reverse, List.mem_filter, List.mem_range]
  constructor
  · intro h
    exact h.2
  · intro h
    exact ⟨testBit_lt_bitLength v i h, h⟩

/-- C1: for every polynomial p of bit length at least 2 and n = bit_length(p) - 1,
every public operation returning a field element (construction from an
integer or from big-endian bytes, add, sub, mul by element or integer, pow)
yields a stored val below 2 ^ n; construction from an integer v stores the
unique value below 2 ^ n congruent to v modulo p, and in particular
GF2n(0x11b, 0x100) == GF2n(0x11b, 0x1b). -/
theorem spec_C1 (P nn v k : Nat) (bs : List Nat) (a b : GF2n) (e : Int)
    (hp : bitLength P = nn + 1) (hn : 1 ≤ nn) (ha : a.p = P) (hb : b.p = P) :
    (GF2n.init P v).val < 2 ^ nn
    ∧ (GF2n.initBytes P bs).val < 2 ^ nn
    ∧ (GF2n.add a b).val < 2 ^ nn
    ∧ (GF2n.sub a b).val < 2 ^ nn
    ∧ (GF2n.mul a b).val < 2 ^ nn
    ∧ (GF2n.mulInt a k).val < 2 ^ nn
    ∧ (GF2n.pow a e).val < 2 ^ nn
    ∧ CongrModP P v ((GF2n.init P v).val)
    ∧ (∀ w, w < 2 ^ nn → CongrModP P v w → w = (GF2n.init P v).val)
    ∧ GF2n.init 0x11b 0x100 = GF2n.init 0x11b 0x1b := by
  refine ⟨init_val_lt P nn v hp, init_val_lt P nn _ hp, ?_, ?_, ?_, ?_, ?_, ?_, ?_, by decide⟩
  · show (GF2n.init a.p (a.val ^^^ b.val)).val < 2 ^ nn
    rw [ha]
    exact init_val_lt P nn _ hp
  · show (GF2n.init a.p (a.val ^^^ b.val)).val < 2 ^ nn
    rw [ha]
    exact init_val_lt P nn _ hp
  · exact mul_val_lt P nn a b hp hn ha hb
  · rw [mulInt_spec P nn a k hp ha]
    exact reduce_modp_lt P nn _ hp
  · have h1 : (GF2n.init a.p 1, GF2n.init a.p a.val).1.p = P := by
      show (GF2n.init a.p 1).p = P
      rw [init_p, ha]
    have h2 : (GF2n.init a.p 1, GF2n.init a.p a.val).2.p = P := by
      show (GF2n.init a.p a.val).p = P
      rw [init_p, ha]
    exact (ladder_closure P nn hp hn (powDigits e) (GF2n.init a.p 1, GF2n.init a.p a.val)
      h1 h2).2 (powDigits_ne_nil e)
  · rw [init_val P nn v hp]
    exact reduce_modp_congr_self P nn v hp
  · intro w hw hcong
    rw [init_val P nn v hp]
    apply congrModP_unique P nn w _ hp hw (reduce_modp_lt P nn v hp)
    exact congrModP_trans P w v _ (congrModP_symm P v w hcong)
      (reduce_modp_congr_self P nn v hp)

theorem spec_C1_witness :
    (bitLength 283 = 8 + 1) ∧ (1 ≤ 8) ∧ ((GF2n.init 283 3).p = 283)
    ∧ ((GF2n.init 283 7).p = 283)
    ∧ (GF2n.init 283 256).val < 2 ^ 8
    ∧ (GF2n.mul (GF2n.init 283 3) (GF2n.init 283 7)).val < 2 ^ 8
    ∧ (GF2n.pow (GF2n.init 283 3) 5).val < 2 ^ 8
    ∧ GF2n.init 0x11b 0x100 = GF2n.init 0x11b 0x1b := by
  have h := spec_C1 283 8 256 3 [1, 2] (GF2n.init 283 3) (GF2n.init 283 7) 5
    (by decide) (by decide) (by decide) (by decide)
  exact ⟨by decide, by decide, by decide, by decide, h.1, h.2.2.2.2.1,
    h.2.2.2.2.2.2.1, h.2.2.2.2.2.2.2.2.2⟩

/-- C2: for elements of the same field, multiplication commutes, the
elements 1 and 0 act as multiplicative identity and absorber (also through
the raw-integer path), and right multiplication by a plain nonnegative
integer is the same function as left multiplication. -/
theorem spec_C2 (P nn : Nat) (a b : GF2n)
    (hp : bitLength P = nn + 1) (hn : 1 ≤ nn) (ha : a.p = P) (hb : b.p = P)
    (hav : a.val < 2 ^ nn) :
    GF2n.mul a b = GF2n.mul b a
    ∧ GF2n.mul a (GF2n.init P 1) = a
    ∧ GF2n.mulInt a 1 = a
    ∧ GF2n.mul a (GF2n.init P 0) = GF2n.init P 0
    ∧ GF2n.mulInt a 0 = GF2n.init P 0
    ∧ GF2n.rmul a 2 = GF2n.mulInt a 2
    ∧ (∀ j : Nat, GF2n.rmul a j = GF2n.mulInt a j) := by
  have h2n : (2 : Nat) ≤ 2 ^ nn := by
    have : (2 : Nat) ^ 1 ≤ 2 ^ nn := Nat.pow_le_pow_right (by norm_num) hn
    omega
  have h1v : (GF2n.init P 1).val = 1 := by
    rw [init_of_lt P nn 1 hp (by omega)]
  have h0v : (GF2n.init P 0).val = 0 := by
    rw [init_of_lt P nn 0 hp (by omega)]
  refine ⟨mul_comm_thm P nn a b hp hn ha hb, ?_, ?_, ?_, ?_, rfl, fun j => rfl⟩
  · rw [mul_spec P nn a (GF2n.init P 1) hp hn ha (init_p P 1), h1v, clmul_one_right,
      reduce_modp_of_lt P nn a.val hav]
    exact (GF2n_eta P a ha).symm
  · rw [mulInt_spec P nn a 1 hp ha, clmul_one_right, reduce_modp_of_lt P nn a.val hav]
    exact (GF2n_eta P a ha).symm
  · rw [mul_spec P nn a (GF2n.init P 0) hp hn ha (init_p P 0), h0v, clmul_zero_right,
      reduce_modp_of_lt P nn 0 (by omega), init_of_lt P nn 0 hp (by omega)]
  · rw [mulInt_spec P nn a 0 hp ha, clmul_zero_right,
      reduce_modp_of_lt P nn 0 (by omega), init_of_lt P nn 0 hp (by omega)]

theorem spec_C2_witness :
    (bitLength 283 = 8 + 1) ∧ (1 ≤ 8) ∧ ((GF2n.init 283 3).p = 283)
    ∧ ((GF2n.init 283 200).p = 283) ∧ ((GF2n.init 283 3).val < 2 ^ 8)
    ∧ GF2n.mul (GF2n.init 283 3) (GF2n.init 283 200)
        = GF2n.mul (GF2n.init 283 200) (GF2n.init 283 3)
    ∧ GF2n.rmul (GF2n.init 283 3) 2 = GF2n.mulInt (GF2n.init 283 3) 2 := by
  have h := spec_C2 283 8 (GF2n.init 283 3) (GF2n.init 283 200)
    (by decide) (by decide) (by decide) (by decide) (by decide)
  exact ⟨by decide, by decide, by decide, by decide, by decide, h.1, h.2.2.2.2.2.1⟩

/-- C4: addition is exactly XOR of the values with no further reduction,
subtraction is the same function as addition, and XOR gives the additive
group laws: commutativity, self-inverse (a + a is the zero element), and
associativity. -/
theorem spec_C4 (P nn : Nat) (a b c : GF2n)
    (hp : bitLength P = nn + 1) (hn : 1 ≤ nn)
    (ha : a.p = P) (hb : b.p = P) (hc : c.p = P)
    (hav : a.val < 2 ^ nn) (hbv : b.val < 2 ^ nn) (hcv : c.val < 2 ^ nn) :
    GF2n.add a b = ⟨P, a.val ^^^ b.val⟩
    ∧ GF2n.sub a b = GF2n.add a b
    ∧ GF2n.add a b = GF2n.add b a
    ∧ GF2n.add a a = GF2n.init P 0
    ∧ GF2n.add (GF2n.add a b) c = GF2n.add a (GF2n.add b c) := by
  refine ⟨add_eq P nn a b hp ha hav hbv, rfl, ?_, ?_, ?_⟩
  · rw [add_eq P nn a b hp ha hav hbv, add_eq P nn b a hp hb hbv hav, Nat.xor_comm]
  · rw [add_eq P nn a a hp ha hav hav, Nat.xor_self,
      init_of_lt P nn 0 hp (Nat.two_pow_pos nn)]
  · have hab := add_eq P nn a b hp ha hav hbv
    have hbc := add_eq P nn b c hp hb hbv hcv
    have habv : (GF2n.add a b).val < 2 ^ nn := by
      rw [hab]
      exact Nat.xor_lt_two_pow hav hbv
    have hbcv : (GF2n.add b c).val < 2 ^ nn := by
      rw [hbc]
      exact Nat.xor_lt_two_pow hbv hcv
    have habp : (GF2n.add a b).p = P := by rw [add_p, ha]
    rw [add_eq P nn (GF2n.add a b) c hp habp habv hcv,
      add_eq P nn a (GF2n.add b c) hp ha hav hbcv, hab, hbc]
    show (⟨P, (a.val ^^^ b.val) ^^^ c.val⟩ : GF2n) = ⟨P, a.val ^^^ (b.val ^^^ c.val)⟩
    rw [Nat.xor_assoc]

theorem spec_C4_witness :
    (bitLength 283 = 8 + 1) ∧ (1 ≤ 8)
    ∧ ((GF2n.init 283 3).p = 283) ∧ ((GF2n.init 283 5).p = 283)
    ∧ ((GF2n.init 283 9).p = 283)
    ∧ ((GF2n.init 283 3).val < 2 ^ 8) ∧ ((GF2n.init 283 5).val < 2 ^ 8)
    ∧ ((GF2n.init 283 9).val < 2 ^ 8)
    ∧ GF2n.add (GF2n.init 283 3) (GF2n.init 283 5) = ⟨283, 3 ^^^ 5⟩
    ∧ GF2n.sub (GF2n.init 283 3) (GF2n.init 283 5)
        = GF2n.add (GF2n.init 283 3) (GF2n.init 283 5)
    ∧ GF2n.add (GF2n.init 283 3) (GF2n.init 283 3) = GF2n.init 283 0 := by
  have h := spec_C4 283 8 (GF2n.init 283 3) (GF2n.init 283 5) (GF2n.init 283 9)
    (by decide) (by decide) (by decide) (by decide) (by decide)
    (by decide) (by decide) (by decide)
  refine ⟨by decide, by decide, by decide, by decide, by decide, by decide, by decide,
    by decide, ?_, h.2.1, h.2.2.2.1⟩
  have h1 := h.1
  have hv3 : (GF2n.init 283 3).val = 3 := by decide
  have hv5 : (GF2n.init 283 5).val = 5 := by decide
  rw [hv3, hv5] at h1
  exact h1

/-- C3: exponentiation is the Montgomery ladder over the exponent digits
most significant first starting from (1, base), and it satisfies
a ** 0 = 1, a ** 1 = a, a ** 2 = a * a, a ** (m + k) = a ** m * a ** k for
nonnegative integers, and GF2n(0x11b, 3) ** 2 == GF2n(0x11b, 5). -/
theorem spec_C3 (P nn : Nat) (a : GF2n) (m k : Nat)
    (hp : bitLength P = nn + 1) (hn : 1 ≤ nn) (ha : a.p = P) (hav : a.val < 2 ^ nn) :
    GF2n.pow a m = (List.foldl GF2n.ladderStep
        (GF2n.init a.p 1, GF2n.init a.p a.val) (powDigits m)).1
    ∧ GF2n.pow a 0 = GF2n.init P 1
    ∧ GF2n.pow a 1 = a
    ∧ GF2n.pow a 2 = GF2n.mul a a
    ∧ GF2n.pow a ((m : Int) + (k : Int)) = GF2n.mul (GF2n.pow a (m : Int)) (GF2n.pow a (k : Int))
    ∧ GF2n.pow (GF2n.init 0x11b 3) 2 = GF2n.init 0x11b 5 := by
  have hc0 : ((0 : Nat) : Int) = (0 : Int) := by norm_num
  have hc1 : ((1 : Nat) : Int) = (1 : Int) := by norm_num
  have hc2 : ((2 : Nat) : Int) = (2 : Int) := by norm_num
  refine ⟨rfl, ?_, ?_, ?_, ?_, by decide⟩
  · rw [← hc0, pow_natCast P nn a 0 hp hn ha hav]
    show GF2n.init a.p 1 = GF2n.init P 1
    rw [ha]
  · rw [← hc1, pow_natCast P nn a 1 hp hn ha hav]
    exact gf_npow_one P nn a hp hn ha hav
  · rw [← hc2, pow_natCast P nn a 2 hp hn ha hav]
    show GF2n.mul (GF2n.npow a 1) a = GF2n.mul a a
    rw [gf_npow_one P nn a hp hn ha hav]
  · rw [show (m : Int) + (k : Int) = ((m + k : Nat) : Int) by push_cast; ring,
      pow_natCast P nn a (m + k) hp hn ha hav, pow_natCast P nn a m hp hn ha hav,
      pow_natCast P nn a k hp hn ha hav]
    exact gf_npow_add P nn a hp hn ha m k

theorem spec_C3_witness :
    (bitLength 283 = 8 + 1) ∧ (1 ≤ 8) ∧ ((GF2n.init 283 3).p = 283)
    ∧ ((GF2n.init 283 3).val < 2 ^ 8)
    ∧ GF2n.pow (GF2n.init 283 3) 0 = GF2n.init 283 1
    ∧ GF2n.pow (GF2n.init 283 3) 1 = GF2n.init 283 3
    ∧ GF2n.pow (GF2n.init 283 3) ((2 : Nat) + (3 : Nat) : Int)
        = GF2n.mul (GF2n.pow (GF2n.init 283 3) ((2 : Nat) : Int))
            (GF2n.pow (GF2n.init 283 3) ((3 : Nat) : Int))
    ∧ GF2n.pow (GF2n.init 0x11b 3) 2 = GF2n.init 0x11b 5 := by
  have h := spec_C3 283 8 (GF2n.init 283 3) 2 3
    (by decide) (by decide) (by decide) (by decide)
  refine ⟨by decide, by decide, by decide, by decide, h.2.1, h.2.2.1, ?_, h.2.2.2.2.2⟩
  have h5 := h.2.2.2.2.1
  have hcast : ((2 : Nat) : Int) + ((3 : Nat) : Int) = (((2 : Nat) + (3 : Nat) : Nat) : Int) := by
    omega
  rw [hcast] at h5
  exact h5

/-- C5: serialization writes val (not p) big-endian on exactly
ceil(n / 8) bytes independent of the magnitude of val, deserialization
inverts it, the constructor round-trips, and the two literal examples. -/
theorem spec_C5 (P nn v : Nat) (hp : bitLength P = nn + 1) (hn : 1 ≤ nn)
    (hv : v < 2 ^ nn) :
    GF2n.toBytes (GF2n.init P v) = some (toBytesBE ((nn + 7) / 8) v)
    ∧ (toBytesBE ((nn + 7) / 8) v).length = (nn + 7) / 8
    ∧ fromBytesBE (toBytesBE ((nn + 7) / 8) v) = v
    ∧ GF2n.initBytes P (toBytesBE ((nn + 7) / 8) v) = GF2n.init P v
    ∧ GF2n.toBytes (GF2n.init 0x11b 5) = some [5]
    ∧ GF2n.toBytes (GF2n.init 0x1277 5) = some [0, 5] := by
  have hfit : v < 256 ^ ((nn + 7) / 8) := by
    have hdm := Nat.div_add_mod (nn + 7) 8
    have hnle : nn ≤ 8 * ((nn + 7) / 8) := by omega
    have h1 : (256 : Nat) ^ ((nn + 7) / 8) = 2 ^ (8 * ((nn + 7) / 8)) := by
      rw [Nat.pow_mul]
    have h2 : (2 : Nat) ^ nn ≤ 2 ^ (8 * ((nn + 7) / 8)) :=
      Nat.pow_le_pow_right (by norm_num) hnle
    omega
  have hval : (GF2n.init P v).val = v := by
    rw [init_of_lt P nn v hp hv]
  have hgn : (GF2n.init P v).n = nn := gfn_eq P nn _ hp (init_p P v)
  have hrt : fromBytesBE (toBytesBE ((nn + 7) / 8) v) = v :=
    fromBytesBE_toBytesBE ((nn + 7) / 8) v hfit
  refine ⟨?_, toBytesBE_length _ v, hrt, ?_, by decide, by decide⟩
  · show (if (GF2n.init P v).val < 256 ^ (((GF2n.init P v).n + 7) / 8)
      then some (toBytesBE (((GF2n.init P v).n + 7) / 8) (GF2n.init P v).val)
      else none) = _
    rw [hval, hgn, if_pos hfit]
  · show GF2n.init P (fromBytesBE (toBytesBE ((nn + 7) / 8) v)) = GF2n.init P v
    rw [hrt]

theorem spec_C5_witness :
    (bitLength 283 = 8 + 1) ∧ (1 ≤ 8) ∧ (5 < 2 ^ 8)
    ∧ GF2n.toBytes (GF2n.init 283 5) = some (toBytesBE ((8 + 7) / 8) 5)
    ∧ (toBytesBE ((8 + 7) / 8) 5).length = (8 + 7) / 8
    ∧ GF2n.initBytes 283 (toBytesBE ((8 + 7) / 8) 5) = GF2n.init 283 5
    ∧ GF2n.toBytes (GF2n.init 0x1277 5) = some [0, 5] := by
  have h := spec_C5 283 8 5 (by decide) (by decide) (by decide)
  exact ⟨by decide, by decide, by decide, h.1, h.2.1, h.2.2.2.1, h.2.2.2.2.2⟩

/-- C6: the special-cased multiplications by 1 and by 2 (whether the right
operand is a raw integer or an element whose reduced value is 1 or 2),
including the single-XOR doubling shortcut, return exactly the element the
general double-and-add loop returns on the same operands. -/
theorem spec_C6 (P nn : Nat) (a b : GF2n)
    (hp : bitLength P = nn + 1) (hn : 1 ≤ nn) (ha : a.p = P) (hb : b.p = P) :
    GF2n.mulInt a 1 = GF2n.mulGeneral a ((GF2n.init P 1).val)
    ∧ GF2n.mulInt a 2 = GF2n.mulGeneral a ((GF2n.init P 2).val)
    ∧ (b.val = (GF2n.init P 1).val ∨ b.val = (GF2n.init P 2).val →
        GF2n.mul a b = GF2n.mulGeneral a b.val)
    ∧ GF2n.double a = GF2n.mulGeneral a ((GF2n.init P 2).val) := by
  have hgen : ∀ w : Nat, GF2n.mulGeneral a w = ⟨P, reduce_modp P nn (clmul a.val w)⟩ :=
    fun w => mulGeneral_spec P nn a w hp ha
  have h2n : (2 : Nat) ≤ 2 ^ nn := by
    have : (2 : Nat) ^ 1 ≤ 2 ^ nn := Nat.pow_le_pow_right (by norm_num) hn
    omega
  have h1v : (GF2n.init P 1).val = 1 := by
    rw [init_of_lt P nn 1 hp (by omega)]
  have hmul2 : GF2n.mulGeneral a ((GF2n.init P 2).val)
      = ⟨P, reduce_modp P nn (2 * a.val)⟩ := by
    rw [hgen ((GF2n.init P 2).val)]
    apply congrArg (fun w => GF2n.mk P w)
    apply reduce_modp_congr P nn _ _ hp
    rw [init_val P nn 2 hp, ← clmul_two_right a.val]
    exact congrModP_clmul_right P a.val _ _
      (congrModP_symm P _ _ (reduce_modp_congr_self P nn 2 hp))
  refine ⟨?_, ?_, ?_, ?_⟩
  · rw [hgen ((GF2n.init P 1).val), h1v, clmul_one_right]
    show GF2n.init a.p a.val = _
    rw [ha, init_eq P nn a.val hp]
  · rw [hmul2]
    show GF2n.double a = _
    rw [double_eq P nn a hp ha]
  · intro hcase
    rw [mul_spec P nn a b hp hn ha hb, hgen b.val]
  · rw [hmul2, double_eq P nn a hp ha]

theorem spec_C6_witness :
    (bitLength 283 = 8 + 1) ∧ (1 ≤ 8) ∧ ((GF2n.init 283 200).p = 283)
    ∧ ((GF2n.init 283 2).p = 283)
    ∧ ((GF2n.init 283 2).val = (GF2n.init 283 1).val
        ∨ (GF2n.init 283 2).val = (GF2n.init 283 2).val)
    ∧ GF2n.mulInt (GF2n.init 283 200) 2
        = GF2n.mulGeneral (GF2n.init 283 200) ((GF2n.init 283 2).val)
    ∧ GF2n.mul (GF2n.init 283 200) (GF2n.init 283 2)
        = GF2n.mulGeneral (GF2n.init 283 200) ((GF2n.init 283 2).val)
    ∧ GF2n.double (GF2n.init 283 200)
        = GF2n.mulGeneral (GF2n.init 283 200) ((GF2n.init 283 2).val) := by
  have h := spec_C6 283 8 (GF2n.init 283 200) (GF2n.init 283 2)
    (by decide) (by decide) (by decide) (by decide)
  exact ⟨by decide, by decide, by decide, by decide, by decide, h.2.1,
    h.2.2.1 (by decide), h.2.2.2⟩

/-- C7 (code behaviour at the failing input): constructing with poly = 0
never raises a construction error.  GF2n(0, 0) returns an element with
p = 0 and val = 0, and GF2n(0, v) for v ≥ 1 never returns at all (the
reduction loop XORs with 0 forever); neither behaviour is the error the
claim and the specification require. -/
theorem spec_C7_code_bug :
    GF2n.construct 0 0 = some ⟨0, 0⟩
    ∧ (∀ v, 1 ≤ v → GF2n.construct 0 v = none) := by
  refine ⟨rfl, ?_⟩
  intro v hv
  show (if (0 : Nat) = 0 then (if v = 0 then some ⟨0, 0⟩ else none)
    else some (GF2n.init 0 v)) = none
  rw [if_pos rfl, if_neg (by omega)]

theorem spec_C7_witness :
    (1 ≤ 1) ∧ GF2n.construct 0 1 = none :=
  ⟨by decide, spec_C7_code_bug.2 1 (by decide)⟩

/-- C8: equality of two elements holds exactly when both the polynomial and
the reduced value agree, elements over different polynomials are never
equal, and a raw-integer or byte-string right operand is first coerced into
the left operand field (hence reduced modulo its polynomial). -/
theorem spec_C8 (a b : GF2n) (k : Nat) (bs : List Nat) :
    (GF2n.beq a b = true ↔ (a.p = b.p ∧ a.val = b.val))
    ∧ (a.p ≠ b.p → GF2n.beq a b = false)
    ∧ GF2n.eqInt a k = GF2n.beq a (GF2n.init a.p k)
    ∧ (GF2n.eqInt a k = true ↔ a.val = (GF2n.init a.p k).val)
    ∧ GF2n.eqBytes a bs = GF2n.beq a (GF2n.initBytes a.p bs)
    ∧ (GF2n.eqBytes a bs = true ↔ a.val = (GF2n.initBytes a.p bs).val) := by
  have hbeq : ∀ c d : GF2n, GF2n.beq c d = true ↔ (c.p = d.p ∧ c.val = d.val) := by
    intro c d
    show (c.val == d.val && c.p == d.p) = true ↔ _
    rw [Bool.and_eq_true, beq_iff_eq, beq_iff_eq]
    exact and_comm
  refine ⟨hbeq a b, ?_, rfl, ?_, rfl, ?_⟩
  · intro hne
    cases hb2 : GF2n.beq a b with
    | false => rfl
    | true => exact absurd ((hbeq a b).mp hb2).1 hne
  · show GF2n.beq a (GF2n.init a.p k) = true ↔ _
    rw [hbeq a (GF2n.init a.p k)]
    constructor
    · intro h
      exact h.2
    · intro h
      exact ⟨rfl, h⟩
  · show GF2n.beq a (GF2n.initBytes a.p bs) = true ↔ _
    rw [hbeq a (GF2n.initBytes a.p bs)]
    constructor
    · intro h
      exact h.2
    · intro h
      exact ⟨rfl, h⟩

theorem spec_C8_witness :
    ((GF2n.init 283 3).p ≠ (GF2n.init 7 3).p)
    ∧ GF2n.beq (GF2n.init 283 3) (GF2n.init 7 3) = false
    ∧ (GF2n.eqInt (GF2n.init 283 27) 283 = true ↔
        (GF2n.init 283 27).val = (GF2n.init (GF2n.init 283 27).p 283).val) := by
  have h := spec_C8 (GF2n.init 283 3) (GF2n.init 7 3) 5 [1]
  have h2 := spec_C8 (GF2n.init 283 27) (GF2n.init 7 3) 283 [1]
  exact ⟨by decide, h.2.1 (by decide), h2.2.2.2.1⟩

/-- C9: the string form is the polynomial rendering of val: one term per
set bit, highest degree first (the listed bit positions are strictly
decreasing and are exactly the set bits), joined by " + ", with degree 0
rendered 1, degree 1 rendered x, higher degrees x^i, a zero value rendered
as the single term 0, followed by the hexadecimal value; and the literal
rendering of GF2n(0x11b, 0x1b) from the claim. -/
theorem spec_C9 (a : GF2n) (i : Nat) :
    GF2n.toStr a = String.intercalate " + " (termsOf a.val)
        ++ " (0x" ++ hexStr a.val ++ ")"
    ∧ termStr 0 = "1"
    ∧ termStr 1 = "x"
    ∧ (2 ≤ i → termStr i = "x^" ++ Nat.repr i)
    ∧ (a.val ≠ 0 → termsOf a.val = (bitIdxDesc a.val).map termStr)
    ∧ List.Pairwise (· > ·) (bitIdxDesc a.val)
    ∧ (∀ j, j ∈ bitIdxDesc a.val ↔ a.val.testBit j = true)
    ∧ (a.val = 0 → GF2n.toStr a = "0 (0x0)")
    ∧ GF2n.toStr (GF2n.init 0x11b 0x1b) = "x^4 + x^3 + x + 1 (0x1b)" := by
  refine ⟨rfl, rfl, rfl, ?_, ?_, bitIdxDesc_sorted a.val, fun j => bitIdxDesc_mem a.val j,
    ?_, by decide⟩
  · intro hi
    show (if i = 0 then "1" else if i = 1 then "x" else "x^" ++ Nat.repr i) = _
    rw [if_neg (by omega), if_neg (by omega)]
  · intro hv
    show (if (bitIdxDesc a.val).map termStr = [] then ["0"]
      else (bitIdxDesc a.val).map termStr) = _
    rw [if_neg ?_]
    intro hmap
    have hnil : bitIdxDesc a.val = [] := List.map_eq_nil_iff.mp hmap
    have hmem : bitLength a.val - 1 ∈ bitIdxDesc a.val :=
      (bitIdxDesc_mem a.val _).mpr (testBit_top a.val hv)
    rw [hnil] at hmem
    exact absurd hmem (List.not_mem_nil _)
  · intro hv
    show String.intercalate " + " (termsOf a.val) ++ " (0x" ++ hexStr a.val ++ ")" = _
    rw [hv]
    decide

theorem spec_C9_witness :
    (2 ≤ 4) ∧ termStr 4 = "x^" ++ Nat.repr 4
    ∧ ((GF2n.init 283 0).val = 0)
    ∧ GF2n.toStr (GF2n.init 283 0) = "0 (0x0)"
    ∧ GF2n.toStr (GF2n.init 0x11b 0x1b) = "x^4 + x^3 + x + 1 (0x1b)" := by
  have h1 := spec_C9 (GF2n.init 283 0) 4
  exact ⟨by decide, h1.2.2.2.1 (by decide), by decide, h1.2.2.2.2.2.2.2.1 (by decide),
    h1.2.2.2.2.2.2.2.2⟩

/-- C10: a negative exponent does not raise: the slice bin(e)[2:] of a
negative exponent keeps the letter b of the 0b marker, the ladder consumes
it as a set bit, so a ** e equals a ** (2 ^ bit_length(-e) + (-e)); in
particular a ** (-1) = a ** 3 for every element. -/
theorem spec_C10 (a : GF2n) (e : Int) (he : e < 0) :
    GF2n.pow a e = GF2n.pow a ((2 ^ bitLength (-e).toNat + (-e).toNat : Nat) : Int)
    ∧ GF2n.pow a (-1) = GF2n.pow a 3 := by
  constructor
  · have hm : (-e).toNat ≠ 0 := by omega
    have hdig1 : powDigits e = true :: binDigits (-e).toNat := by
      show (if e < 0 then true :: binDigits (-e).toNat else binDigits e.toNat) = _
      rw [if_pos he]
    have hdig2 : powDigits ((2 ^ bitLength (-e).toNat + (-e).toNat : Nat) : Int)
        = true :: binDigits (-e).toNat := by
      show (if ((2 ^ bitLength (-e).toNat + (-e).toNat : Nat) : Int) < 0 then _
        else binDigits (((2 ^ bitLength (-e).toNat + (-e).toNat : Nat) : Int)).toNat) = _
      have hnonneg : (0 : Int) ≤ ((2 ^ bitLength (-e).toNat + (-e).toNat : Nat) : Int) :=
        Int.natCast_nonneg _
      rw [if_neg (by omega), Int.toNat_ofNat]
      exact binDigits_pow_add (-e).toNat hm
    show (List.foldl GF2n.ladderStep _ (powDigits e)).1 = (List.foldl GF2n.ladderStep _ _).1
    rw [hdig1, hdig2]
  · rfl

theorem spec_C10_witness :
    ((-1 : Int) < 0)
    ∧ GF2n.pow (GF2n.init 283 3) (-1)
        = GF2n.pow (GF2n.init 283 3) ((2 ^ bitLength ((-(-1 : Int)).toNat) + ((-(-1 : Int)).toNat) : Nat) : Int)
    ∧ GF2n.pow (GF2n.init 283 3) (-1) = GF2n.pow (GF2n.init 283 3) 3 := by
  have h := spec_C10 (GF2n.init 283 3) (-1) (by decide)
  exact ⟨by decide, h.1, h.2⟩

